import Mathlib

/-!
Verification of the math_rag chunking and retrieval core.

This file gives a shallow embedding of the structure-aware chunker
(`src/chunking/structure_aware_chunker.py`, with its helpers from
`src/utils/math_utils.py`) and of the hybrid retriever / query classifier
(`src/retrieval/hybrid_retriever.py`), and proves or refutes the spec claims
about them.

Modelling conventions:
* Python strings are `List Char` (`Txt`); all regular-expression searches of
  the source are implemented as explicit, total scanning functions that are
  faithful to the concrete patterns used (case folding, greedy repetition,
  non-overlapping `finditer` scanning, `^`-anchoring under `re.MULTILINE`,
  `\b` word boundaries).
* Python floats are modelled by exact rationals.  The two size comparisons of
  the chunker (`max_chars = max_tokens * 3.5` and the `* 1.3` token estimate)
  are expressed by the exact integer inequalities `2*len ≤ 7*max_tokens` and
  `13*words > 10*max_tokens`.
* `uuid4` chunk ids are omitted from the chunk record (they are random and no
  claim mentions them), as are the latex-equation lists (`extract_equations`
  affects no claimed field).
-/

namespace MathRag

abbrev Txt := List Char

/-- Python's `\s` / `str.strip` whitespace class (ASCII). -/
def isSpc (c : Char) : Bool :=
  c == ' ' || c == '\t' || c == '\n' || c == '\r' || c == '\x0b' || c == '\x0c'

/-- `str.lstrip`. -/
def lstripL (s : Txt) : Txt := s.dropWhile isSpc

/-- `str.rstrip`. -/
def rstripL (s : Txt) : Txt := (s.reverse.dropWhile isSpc).reverse

/-- `str.strip`. -/
def stripL (s : Txt) : Txt := rstripL (lstripL s)

/-- `s` contains at least one non-whitespace character. -/
def hasInk (s : Txt) : Bool := s.any (fun c => !(isSpc c))

/-- `str.lower` (ASCII content). -/
def lowerL (s : Txt) : Txt := s.map Char.toLower

/-- `text.split('\n\n')`: split on the exact two-newline separator,
non-overlapping, left to right. -/
def splitNN : Txt → List Txt
  | [] => [[]]
  | '\n' :: '\n' :: rest => [] :: splitNN rest
  | c :: rest =>
    match splitNN rest with
    | [] => [[c]]
    | p :: ps => (c :: p) :: ps

/-- `'\n\n'.join(parts)`. -/
def joinNN : List Txt → Txt
  | [] => []
  | [p] => p
  | p :: ps => p ++ '\n' :: '\n' :: joinNN ps

/-- Does `needle` occur at the start of `hay`? -/
def begins : Txt → Txt → Bool
  | [], _ => true
  | _ :: _, [] => false
  | a :: as, b :: bs => a == b && begins as bs

/-- Python's `needle in hay` substring test. -/
def isSubstr (n : Txt) : Txt → Bool
  | [] => begins n []
  | h :: t => begins n (h :: t) || isSubstr n t

/-- Case-insensitive literal match: `lit` is given lower-case; returns the rest
of `s` after the matched prefix. -/
def dropCI : Txt → Txt → Option Txt
  | [], s => some s
  | _ :: _, [] => none
  | a :: as, b :: bs => if a == Char.toLower b then dropCI as bs else none

/-- Number of whitespace-separated words, i.e. `len(s.split())`. -/
def wcGo : Bool → Txt → ℕ
  | _, [] => 0
  | inw, c :: rest =>
    if isSpc c then wcGo false rest
    else (if inw then 0 else 1) + wcGo true rest

def wordCount (s : Txt) : ℕ := wcGo false s

/-- Decimal digits of a natural number (`str(n)`), via explicit fuel. -/
def natCharsRev : ℕ → ℕ → Txt
  | 0, _ => []
  | fuel + 1, n =>
    if n < 10 then [Char.ofNat (48 + n)]
    else Char.ofNat (48 + n % 10) :: natCharsRev fuel (n / 10)

def natChars (n : ℕ) : Txt := (natCharsRev (n + 1) n).reverse

/-- `int(digits)` for a string of decimal digits. -/
def natOfDigits (s : Txt) : ℕ := s.foldl (fun a c => 10 * a + (c.toNat - 48)) 0

/-- ASCII upper-case letter, the `[A-Z]` class. -/
def isUpperAZ (c : Char) : Bool := 'A' ≤ c && c ≤ 'Z'

/-- Python's `\w` word character (ASCII approximation). -/
def isWordC (c : Char) : Bool := c.isAlphanum || c == '_'

def isWordO : Option Char → Bool
  | none => false
  | some c => isWordC c

/-- A `\b` word boundary lies between two (optional) characters iff exactly one
side is a word character; string edges count as non-word. -/
def bdry (a b : Option Char) : Bool := isWordO a != isWordO b

/-- `\b<needle>\b` matches at the start of `s`, with `prev` the character just
before this position. -/
def wbAt (n : Txt) (prev : Option Char) (s : Txt) : Bool :=
  begins n s && bdry prev n.head? && bdry n.getLast? ((s.drop n.length).head?)

def wbSearchGo (n : Txt) : Option Char → Txt → Bool
  | _, [] => false
  | prev, c :: rest => wbAt n prev (c :: rest) || wbSearchGo n (some c) rest

/-- `re.search(r'\b<needle>\b', s)` for a literal needle. -/
def wbSearch (n s : Txt) : Bool := wbSearchGo n none s

/-!  ## Header pattern matchers (`chunk_document`, lines 84-102)

Each `match*At` function decides whether the corresponding pattern matches at
the start of the given suffix, returning the match length and the first capture
group.  Greedy `\d+` / `\s+` repetition is exact here because no character is
in two of the classes a repetition hands over to. -/

/-- `\d+(?:\.\d+)?` at the start of `s`: `(group, rest)`. -/
def numTok (s : Txt) : Option (Txt × Txt) :=
  let d1 := s.takeWhile Char.isDigit
  if d1.isEmpty then none
  else
    match s.dropWhile Char.isDigit with
    | '.' :: r2 =>
      let d2 := r2.takeWhile Char.isDigit
      if d2.isEmpty then some (d1, '.' :: r2)
      else some (d1 ++ '.' :: d2, r2.dropWhile Char.isDigit)
    | r => some (d1, r)

/-- `EXERCISE\s+(\d+\.\d+)` (IGNORECASE) at the start of `s`. -/
def matchExerciseAt (s : Txt) : Option (ℕ × Txt) := do
  let r ← dropCI "exercise".toList s
  let ws := r.takeWhile isSpc
  if ws.isEmpty then none
  else
    let r2 := r.dropWhile isSpc
    let d1 := r2.takeWhile Char.isDigit
    if d1.isEmpty then none
    else
      match r2.dropWhile Char.isDigit with
      | '.' :: r3 =>
        let d2 := r3.takeWhile Char.isDigit
        if d2.isEmpty then none
        else some (8 + ws.length + d1.length + 1 + d2.length, d1 ++ '.' :: d2)
      | _ => none

/-- `<word>\s+(\d+)` (IGNORECASE) at the start of `s`; used for
`Example\s+(\d+)`, `Theorem\s+(\d+)`, `Definition\s+(\d+)`. -/
def matchWordNumAt (word : Txt) (s : Txt) : Option (ℕ × Txt) := do
  let r ← dropCI word s
  let ws := r.takeWhile isSpc
  if ws.isEmpty then none
  else
    let r2 := r.dropWhile isSpc
    let d := r2.takeWhile Char.isDigit
    if d.isEmpty then none
    else some (word.length + ws.length + d.length, d)

/-- `Miscellaneous\s+(Exercise|Examples)` (IGNORECASE) at the start of `s`. -/
def matchMiscAt (s : Txt) : Option (ℕ × Txt) := do
  let r ← dropCI "miscellaneous".toList s
  let ws := r.takeWhile isSpc
  if ws.isEmpty then none
  else
    let r2 := r.dropWhile isSpc
    match dropCI "exercise".toList r2 with
    | some _ => some (13 + ws.length + 8, [])
    | none =>
      match dropCI "examples".toList r2 with
      | some _ => some (13 + ws.length + 8, [])
      | none => none

/-- `\s*\d+\.\d+\s+[A-Z]` (body of the `^`-anchored section pattern) at the
start of `s`. -/
def matchSecAt (s : Txt) : Option (ℕ × Txt) :=
  let ws0 := s.takeWhile isSpc
  let r1 := s.dropWhile isSpc
  let d1 := r1.takeWhile Char.isDigit
  if d1.isEmpty then none
  else
    match r1.dropWhile Char.isDigit with
    | '.' :: r2 =>
      let d2 := r2.takeWhile Char.isDigit
      if d2.isEmpty then none
      else
        let r3 := r2.dropWhile Char.isDigit
        let ws1 := r3.takeWhile isSpc
        if ws1.isEmpty then none
        else
          match r3.dropWhile isSpc with
          | c :: _ =>
            if isUpperAZ c then
              some (ws0.length + d1.length + 1 + d2.length + ws1.length + 1, [])
            else none
          | [] => none
    | _ => none

/-- `re.finditer`: scan left to right, emitting non-overlapping matches and
resuming after each match's end.  `fuel` starts at the string length. -/
def scanAt (f : Txt → Option (ℕ × Txt)) : ℕ → ℕ → Txt → List (ℕ × Txt)
  | 0, _, _ => []
  | _ + 1, _, [] => []
  | fuel + 1, pos, c :: rest =>
    match f (c :: rest) with
    | some (len, g) => (pos, g) :: scanAt f fuel (pos + len) ((c :: rest).drop len)
    | none => scanAt f fuel (pos + 1) rest

def finditer (f : Txt → Option (ℕ × Txt)) (s : Txt) : List (ℕ × Txt) :=
  scanAt f s.length 0 s

/-- `re.finditer` for the `^\s*\d+\.\d+\s+[A-Z]` pattern under `re.MULTILINE`:
matches may start only at position 0 or just after a `'\n'`.  A match always
ends in `[A-Z]`, so scanning resumes off a line start. -/
def scanSec : ℕ → Bool → ℕ → Txt → List (ℕ × Txt)
  | 0, _, _, _ => []
  | _ + 1, _, _, [] => []
  | fuel + 1, atLS, pos, c :: rest =>
    match (if atLS then matchSecAt (c :: rest) else none) with
    | some (len, g) => (pos, g) :: scanSec fuel false (pos + len) ((c :: rest).drop len)
    | none => scanSec fuel (c == '\n') (pos + 1) rest

/-- `re.search(r'CHAPTER\s+(\d+)', page_text, re.IGNORECASE)`, returning
`int(group(1))` of the leftmost match (lines 232-234). -/
def searchChapter : Txt → Option ℕ
  | [] => none
  | c :: rest =>
    match matchWordNumAt "chapter".toList (c :: rest) with
    | some (_, d) => some (natOfDigits d)
    | none => searchChapter rest

/-!  ## Reference-linking patterns (`_link_content_to_chunk`, lines 270-319) -/

/-- `Fig(?:ure)?\.?\s*(\d+(?:\.\d+)?)` (IGNORECASE) at the start of `s`. -/
def matchFigAt (s : Txt) : Option (ℕ × Txt) := do
  let r ← dropCI "fig".toList s
  let (ulen, r1) :=
    match dropCI "ure".toList r with
    | some r' => (3, r')
    | none => (0, r)
  let (dlen, r2) :=
    match r1 with
    | '.' :: r' => (1, r')
    | _ => (0, r1)
  let ws := r2.takeWhile isSpc
  let r3 := r2.dropWhile isSpc
  match numTok r3 with
  | some (g, _) => some (3 + ulen + dlen + ws.length + g.length, g)
  | none => none

/-- `Table\s*(\d+(?:\.\d+)?)` (IGNORECASE) at the start of `s`. -/
def matchTableAt (s : Txt) : Option (ℕ × Txt) := do
  let r ← dropCI "table".toList s
  let ws := r.takeWhile isSpc
  let r1 := r.dropWhile isSpc
  match numTok r1 with
  | some (g, _) => some (5 + ws.length + g.length, g)
  | none => none

/-- `re.findall` group lists for figure / table references in chunk text. -/
def figRefs (t : Txt) : List Txt := (finditer matchFigAt t).map (·.2)

def tableRefs (t : Txt) : List Txt := (finditer matchTableAt t).map (·.2)

/-- `ref.replace('.', '_')`. -/
def normRef (r : Txt) : Txt := r.map (fun c => if c == '.' then '_' else c)

/-!  ## `MathDetector` (`src/utils/math_utils.py`)

`detect_content_type` lower-cases the text and probes fixed word-boundary
patterns in a fixed order; `is_proof` / `is_derivation` are its helpers. -/

/-- `\bstep \d+\b` matches somewhere in `s` (already lower-cased). -/
def stepNumGo : Option Char → Txt → Bool
  | _, [] => false
  | prev, c :: rest =>
    (bdry prev (some 's') && begins "step ".toList (c :: rest) &&
      (let r := (c :: rest).drop 5
       let d := r.takeWhile Char.isDigit
       !d.isEmpty && !(isWordO ((r.dropWhile Char.isDigit).head?)))) ||
    stepNumGo (some c) rest

def stepNumSearch (s : Txt) : Bool := stepNumGo none s

/-- `.*we get\b` from the current position: consume non-newline characters
until `we get` (with a trailing boundary) matches. -/
def tailWeGet : Txt → Bool
  | [] => false
  | c :: rest =>
    (begins "we get".toList (c :: rest) &&
      !(isWordO (((c :: rest).drop 6).head?))) ||
    (c != '\n' && tailWeGet rest)

/-- `\bfrom.*we get\b` matches somewhere in `s`. -/
def fromWeGetGo : Option Char → Txt → Bool
  | _, [] => false
  | prev, c :: rest =>
    (bdry prev (some 'f') && begins "from".toList (c :: rest) &&
      tailWeGet ((c :: rest).drop 4)) ||
    fromWeGetGo (some c) rest

def fromWeGetSearch (s : Txt) : Bool := fromWeGetGo none s

/-- `MathDetector.is_proof` (lines 116-129): any of the fixed word-boundary
indicators in the lower-cased text. -/
def isProofTxt (t : Txt) : Bool :=
  let tl := lowerL t
  ["proof", "prove", "q.e.d", "∎", "therefore", "hence", "thus",
   "let us prove", "we shall prove", "solution", "proof:"].any
    (fun w => wbSearch w.toList tl)

/-- `MathDetector.is_derivation` (lines 131-146). -/
def isDerivTxt (t : Txt) : Bool :=
  let tl := lowerL t
  (["derive", "derivation", "derivative", "substituting",
    "solving", "simplifying", "on solving"].any (fun w => wbSearch w.toList tl)) ||
  stepNumSearch tl || fromWeGetSearch tl || decide (t.count '=' ≥ 3)

/-- `MathDetector.detect_content_type` (lines 150-169). -/
def detectContentType (t : Txt) : Txt :=
  let tl := lowerL t
  if ["definition", "define", "def."].any (fun w => wbSearch w.toList tl) then
    "definition".toList
  else if ["theorem", "thm.", "lemma", "corollary"].any (fun w => wbSearch w.toList tl) then
    "theorem".toList
  else if isProofTxt t then "proof".toList
  else if isDerivTxt t then "derivation".toList
  else if ["example", "ex."].any (fun w => wbSearch w.toList tl) then
    "example".toList
  else if ["exercise", "question", "q.", "problem"].any (fun w => wbSearch w.toList tl) then
    "exercise".toList
  else if ["solution", "sol.", "answer"].any (fun w => wbSearch w.toList tl) then
    "solution".toList
  else "text".toList

/-!  ## Query classifier and entity patterns (`hybrid_retriever.py`) -/

/-- One `_is_entity_query` pattern `<word>\s*\d+` matches at the start of the
suffix. -/
def wordNumStarAt (w : Txt) (s : Txt) : Bool :=
  match dropCI w s with
  | none => false
  | some r =>
    match r.dropWhile isSpc with
    | c :: _ => c.isDigit
    | [] => false

def searchWordNumStar (w : Txt) : Txt → Bool
  | [] => false
  | c :: rest => wordNumStarAt w (c :: rest) || searchWordNumStar w rest

/-- `HybridRetriever._is_entity_query` (lines 159-177): the six patterns
`example\s*\d+`, `ex\s*\d+`, `exercise\s*\d+`, `question\s*\d+`, `q\s*\d+`,
`problem\s*\d+`, each IGNORECASE. -/
def isEntityQuery (q : Txt) : Bool :=
  searchWordNumStar "example".toList q || searchWordNumStar "ex".toList q ||
  searchWordNumStar "exercise".toList q || searchWordNumStar "question".toList q ||
  searchWordNumStar "q".toList q || searchWordNumStar "problem".toList q

/-- `re.search` for a matcher `f`: leftmost position where `f` matches. -/
def searchOpt {α : Type} (f : Txt → Option α) : Txt → Option α
  | [] => f []
  | c :: rest =>
    match f (c :: rest) with
    | some g => some g
    | none => searchOpt f rest

/-- `example\s+(\d+(?:\.\d+)?)` at the start of `s`. -/
def matchExNum1At (s : Txt) : Option Txt := do
  let r ← dropCI "example".toList s
  let ws := r.takeWhile isSpc
  if ws.isEmpty then none
  else
    match numTok (r.dropWhile isSpc) with
    | some (g, _) => some g
    | none => none

/-- `ex\.\s*(\d+(?:\.\d+)?)` at the start of `s`. -/
def matchExNum2At (s : Txt) : Option Txt := do
  let r ← dropCI "ex.".toList s
  match numTok (r.dropWhile isSpc) with
  | some (g, _) => some g
  | none => none

/-- `QueryClassifier.extract_example_number` (lines 319-330): try the first
pattern over the whole query, then the second. -/
def extractExampleNumber (q : Txt) : Option Txt :=
  match searchOpt matchExNum1At q with
  | some g => some g
  | none => searchOpt matchExNum2At q

/-- `examples?\s+(\d+)\s*(?:to|-)\s*(\d+)` (IGNORECASE) at the start of `s`,
returning the two captured numbers. -/
def matchRangeAt (s : Txt) : Option (ℕ × ℕ) := do
  let r ← dropCI "example".toList s
  let r1 :=
    match dropCI "s".toList r with
    | some r' => r'
    | none => r
  let ws := r1.takeWhile isSpc
  if ws.isEmpty then none
  else
    let r2 := r1.dropWhile isSpc
    let d1 := r2.takeWhile Char.isDigit
    if d1.isEmpty then none
    else
      let r3 := (r2.dropWhile Char.isDigit).dropWhile isSpc
      let r4 ←
        match dropCI "to".toList r3 with
        | some r' => some r'
        | none =>
          match r3 with
          | '-' :: r' => some r'
          | _ => none
      let r5 := r4.dropWhile isSpc
      let d2 := r5.takeWhile Char.isDigit
      if d2.isEmpty then none
      else some (natOfDigits d1, natOfDigits d2)

/-- `QueryClassifier.extract_example_range` (lines 298-317): regex search, then
swap reversed bounds, clamp the span to 10, and render `range(start, end+1)`. -/
def extractExampleRange (q : Txt) : Option (List Txt) :=
  match searchOpt matchRangeAt q with
  | none => none
  | some (a, b) =>
    let s := if b < a then b else a
    let e := if b < a then a else b
    let e := if e - s > 10 then s + 10 else e
    some ((List.range (e + 1 - s)).map (fun i => natChars (s + i)))

/-- The keyword families of `QueryClassifier.query_types`, in dict insertion
order (lines 266-273). -/
def kwFamilies : List (Txt × List Txt) :=
  [("definition".toList, ["what is".toList, "define".toList, "meaning of".toList, "definition".toList]),
   ("theorem".toList, ["theorem".toList, "prove".toList, "proof".toList]),
   ("formula".toList, ["formula".toList, "equation".toList, "expression".toList]),
   ("example".toList, ["example".toList, "demonstrate".toList, "illustrate".toList]),
   ("exercise".toList, ["solve".toList, "exercise".toList, "problem".toList, "question".toList]),
   ("concept".toList, ["explain".toList, "how".toList, "why".toList, "concept".toList])]

def famHit (kws : List Txt) (ql : Txt) : Bool := kws.any (fun k => isSubstr k ql)

def kwClassGo (ql : Txt) : List (Txt × List Txt) → Txt
  | [] => "concept".toList
  | (name, kws) :: rest => if famHit kws ql then name else kwClassGo ql rest

/-- `QueryClassifier.classify` (lines 275-296): the entity check first, then
the keyword families in order, defaulting to `concept`. -/
def classify (q : Txt) : Txt :=
  if (extractExampleNumber q).isSome then "example".toList
  else kwClassGo (lowerL q) kwFamilies

/-!  ## Data model (`src/utils/schema.py`) -/

/-- `ContentType` (constructor names shortened: `theorem`, `example` and
`definition` collide with Lean keywords / abbreviations). -/
inductive CType
  | defn | thm | prf | deriv | exam | exer | soln | txt | tbl | img | formula
deriving DecidableEq

/-- `_map_content_type` (lines 617-628). -/
def mapCT (s : Txt) : CType :=
  if s = "definition".toList then .defn
  else if s = "theorem".toList then .thm
  else if s = "proof".toList then .prf
  else if s = "example".toList then .exam
  else if s = "exercise".toList then .exer
  else if s = "solution".toList then .soln
  else if s = "derivation".toList then .deriv
  else .txt

/-- The fields of an extracted image record used by the chunker. -/
structure ImgRec where
  imageId : Txt
  imagePath : Txt
  pageNumber : ℕ
deriving DecidableEq

/-- The fields of an extracted table record used by the chunker. -/
structure TblRec where
  tableId : Txt
  pageNumber : ℕ
deriving DecidableEq

/-- `ContentChunk`, restricted to the fields the claims mention (the random
`chunk_id` and the equation list are omitted, see the header comment). -/
structure Chunk where
  documentId : Txt
  classLevel : Txt
  chapterNumber : ℕ
  chapterName : Txt
  sectionName : Txt
  contentType : CType
  textContent : Txt
  pageNumber : ℕ
  images : List ImgRec
  tables : List TblRec
  exampleNumber : Option Txt
  exerciseNumber : Option Txt
deriving DecidableEq

/-- A page record as consumed by `chunk_document` (the unused `blocks` field is
omitted). -/
structure PageRec where
  pageNumber : ℕ
  text : Txt
  images : List ImgRec
  tables : List TblRec
deriving DecidableEq

/-- The cross-page `exercise_buffer` accumulator (lines 58-64); `isExample`
models `buffer['type'] == 'example'` (the only two values are `'exercise'` and
`'example'`). -/
structure BufferRec where
  text : Txt
  number : Txt
  startPage : ℕ
  isExample : Bool
  images : List ImgRec
deriving DecidableEq

def kindStr (b : BufferRec) : Txt :=
  if b.isExample then "example".toList else "exercise".toList

def kindStrCap (b : BufferRec) : Txt :=
  if b.isExample then "Example".toList else "Exercise".toList

/-!  ## Reference linking (`_link_content_to_chunk`, lines 254-338) -/

def imgLinked (id : Txt) (imgs : List ImgRec) : Bool :=
  imgs.any (fun i => i.imageId == id)

def tblLinked (id : Txt) (tbls : List TblRec) : Bool :=
  tbls.any (fun t => t.tableId == id)

/-- The figure-reference linking loop: for each captured reference, append
each page image whose id contains `fig_<norm ref>`, unless an image with the
same id is already linked. -/
def linkImgsRef (refs : List Txt) (pageImages : List ImgRec) (cur : List ImgRec) :
    List ImgRec :=
  refs.foldl
    (fun cur r =>
      pageImages.foldl
        (fun cur img =>
          if isSubstr ("fig_".toList ++ normRef r) img.imageId &&
              !(imgLinked img.imageId cur)
          then cur ++ [img] else cur)
        cur)
    cur

/-- The table-reference linking loop. -/
def linkTblsRef (refs : List Txt) (pageTables : List TblRec) (cur : List TblRec) :
    List TblRec :=
  refs.foldl
    (fun cur r =>
      pageTables.foldl
        (fun cur tbl =>
          if isSubstr ("table_".toList ++ normRef r) tbl.tableId &&
              !(tblLinked tbl.tableId cur)
          then cur ++ [tbl] else cur)
        cur)
    cur

/-- `_link_content_to_chunk`: the explicit-reference phase (the spatial phase,
lines 321-338, is dead code ending in `pass`). -/
def linkContent (c : Chunk) (pis : List ImgRec) (pts : List TblRec) : Chunk :=
  if pis.isEmpty && pts.isEmpty then c
  else
    { c with
      images := linkImgsRef (figRefs c.textContent) pis c.images,
      tables := linkTblsRef (tableRefs c.textContent) pts c.tables }

/-- `self._link_content_to_chunk(chunk, ...)` guarded by
`if page_images or page_tables:` as at every call site. -/
def linkIf (c : Chunk) (pis : List ImgRec) (pts : List TblRec) : Chunk :=
  if !pis.isEmpty || !pts.isEmpty then linkContent c pis pts else c

/-!  ## `_create_collection_chunk` (lines 340-512) -/

/-- The common `ContentChunk(...)` construction of the collection branches. -/
def mkCollChunk (docId cl : Txt) (ch : ℕ × Txt) (secName : Txt) (buf : BufferRec)
    (textC : Txt) : Chunk :=
  { documentId := docId, classLevel := cl, chapterNumber := ch.1,
    chapterName := ch.2, sectionName := secName,
    contentType := if buf.isExample then .exam else .exer,
    textContent := textC, pageNumber := buf.startPage,
    images := [], tables := [],
    exampleNumber := if buf.isExample then some buf.number else none,
    exerciseNumber := if buf.isExample then none else some buf.number }

/-- The synthetic continuation header
`f"[{type.capitalize()} {number} (Part {n})]\n\n"`. -/
def hdrTxt (buf : BufferRec) (n : ℕ) : Txt :=
  '[' :: (kindStrCap buf ++ ' ' :: buf.number ++ " (Part ".toList ++ natChars n
    ++ ")]".toList) ++ '\n' :: '\n' :: []

/-- `f"{type} {number}".lower() not in final_text.lower()[:50]`. -/
def hdrAbsent (buf : BufferRec) (t : Txt) : Bool :=
  !(isSubstr (lowerL (kindStr buf ++ ' ' :: buf.number)) ((lowerL t).take 50))

/-- Part text: the context header is prepended for parts past the first when
the `<type> <number>` marker is missing from the first 50 characters. -/
def partText (buf : BufferRec) (n : ℕ) (core : Txt) : Txt :=
  if n > 1 ∧ hdrAbsent buf core then hdrTxt buf n ++ core else core

/-- Finalize one split part: build the chunk and run reference linking. -/
def mkPart (docId cl : Txt) (ch : ℕ × Txt) (secName : Txt) (buf : BufferRec)
    (pis : List ImgRec) (pts : List TblRec) (n : ℕ) (core : Txt) : Chunk :=
  linkIf (mkCollChunk docId cl ch secName buf (partText buf n core)) pis pts

/-- The paragraph-greedy splitting loop of the oversized branch
(lines 390-463): `cur` is `current_chunk_text`, `n` is `part_num`. -/
def splitGo (mt : ℕ) (docId cl : Txt) (ch : ℕ × Txt) (secName : Txt)
    (buf : BufferRec) (pis : List ImgRec) (pts : List TblRec) :
    List Txt → Txt → ℕ → List Chunk
  | [], cur, n =>
    if stripL cur ≠ [] then [mkPart docId cl ch secName buf pis pts n cur] else []
  | p :: rest, cur, n =>
    if stripL p = [] then splitGo mt docId cl ch secName buf pis pts rest cur n
    else if 2 * (cur.length + p.length) > 7 * mt ∧ cur ≠ [] then
      mkPart docId cl ch secName buf pis pts n cur ::
        splitGo mt docId cl ch secName buf pis pts rest p (n + 1)
    else
      splitGo mt docId cl ch secName buf pis pts rest
        (if cur = [] then p else cur ++ '\n' :: '\n' :: p) n

/-- The split-branch chunk list before orphan rescue. -/
def collParts (mt : ℕ) (docId cl : Txt) (ch : ℕ × Txt) (secName : Txt)
    (buf : BufferRec) (pis : List ImgRec) (pts : List TblRec) : List Chunk :=
  splitGo mt docId cl ch secName buf pis pts (splitNN buf.text) [] 1

/-- Is `id` linked to some chunk of the group? -/
def anyLinked (cs : List Chunk) (id : Txt) : Bool :=
  cs.any (fun c => imgLinked id c.images)

/-- One orphan-rescue step (lines 485-509): attach the orphan to every chunk
with the same recorded page, deduplicating by image id; if no chunk matches,
the orphan is dropped (with a diagnostic in the source). -/
def rescueStep (cs : List Chunk) (o : ImgRec) : List Chunk :=
  if cs.any (fun c => c.pageNumber == o.pageNumber) then
    cs.map (fun c =>
      if c.pageNumber == o.pageNumber && !(imgLinked o.imageId c.images)
      then { c with images := c.images ++ [o] } else c)
  else cs

def rescueOrphans (cs : List Chunk) (os : List ImgRec) : List Chunk :=
  os.foldl rescueStep cs

/-- `_create_collection_chunk`.  `mt` is `max_tokens`; the size bound
`max_chars = max_tokens * 3.5` becomes `2*len ≤ 7*mt`.  Note the within-bound
branch returns before the orphan-rescue block. -/
def createCollectionChunk (mt : ℕ) (docId cl : Txt) (ch : ℕ × Txt)
    (secName : Txt) (buf : BufferRec) (pis : List ImgRec) (pts : List TblRec) :
    List Chunk :=
  if stripL buf.text = [] then []
  else if 2 * buf.text.length ≤ 7 * mt then
    [linkIf (mkCollChunk docId cl ch secName buf buf.text) pis pts]
  else
    let parts := collParts mt docId cl ch secName buf pis pts
    if !pis.isEmpty then
      rescueOrphans parts (pis.filter (fun i => !(anyLinked parts i.imageId)))
    else parts

/-!  ## Simple chunks and per-page fallback chunking (lines 514-615) -/

/-- `_create_simple_chunk` (lines 580-615). -/
def createSimpleChunk (docId cl : Txt) (ch : ℕ × Txt) (secName : Txt)
    (pageNum : ℕ) (text : Txt) : Option Chunk :=
  if stripL text = [] then none
  else
    some { documentId := docId, classLevel := cl, chapterNumber := ch.1,
           chapterName := ch.2, sectionName := secName,
           contentType := mapCT (detectContentType text), textContent := text,
           pageNumber := pageNum, images := [], tables := [],
           exampleNumber := none, exerciseNumber := none }

/-- The `if chunk: ... chunks.append(chunk)` pattern around
`_create_simple_chunk`, with reference linking. -/
def simpleChunkList (docId cl : Txt) (ch : ℕ × Txt) (secName : Txt)
    (pageNum : ℕ) (text : Txt) (pis : List ImgRec) (pts : List TblRec) :
    List Chunk :=
  match createSimpleChunk docId cl ch secName pageNum text with
  | some c => [linkIf c pis pts]
  | none => []

/-- The paragraph loop of `_chunk_page` (lines 533-578).  The token estimate
`len(x.split()) * 1.3` makes the overflow test `13*(wc cur + wc p) > 10*mt`
(exact rational arithmetic in place of floats). -/
def chunkPageGo (mt : ℕ) (docId cl : Txt) (ch : ℕ × Txt) (secName : Txt)
    (pageNum : ℕ) (pis : List ImgRec) (pts : List TblRec) :
    List Txt → Txt → List Chunk
  | [], cur =>
    if stripL cur ≠ [] then simpleChunkList docId cl ch secName pageNum cur pis pts
    else []
  | p :: rest, cur =>
    if stripL p = [] then chunkPageGo mt docId cl ch secName pageNum pis pts rest cur
    else if 13 * (wordCount cur + wordCount p) > 10 * mt ∧ cur ≠ [] then
      simpleChunkList docId cl ch secName pageNum cur pis pts ++
        chunkPageGo mt docId cl ch secName pageNum pis pts rest p
    else
      chunkPageGo mt docId cl ch secName pageNum pis pts rest
        (if cur = [] then p else cur ++ '\n' :: '\n' :: p)

/-- `_chunk_page` applied to the dummy page holding the tail text. -/
def chunkPage (mt : ℕ) (docId cl : Txt) (ch : ℕ × Txt) (secName : Txt)
    (pageNum : ℕ) (text : Txt) (pis : List ImgRec) (pts : List TblRec) :
    List Chunk :=
  chunkPageGo mt docId cl ch secName pageNum pis pts (splitNN text) []

/-!  ## Page segmentation and `chunk_document` (lines 33-252) -/

inductive HKind
  | hExer | hExam | hMisc | hThm | hDef | hSec
deriving DecidableEq

structure Hdr where
  pos : ℕ
  kind : HKind
  num : Txt
deriving DecidableEq

/-- All header occurrences of a page, gathered family by family in source
order (lines 81-102). -/
def pageHeaders (t : Txt) : List Hdr :=
  ((finditer matchExerciseAt t).map (fun pg => Hdr.mk pg.1 .hExer pg.2)) ++
  ((finditer (matchWordNumAt "example".toList) t).map (fun pg => Hdr.mk pg.1 .hExam pg.2)) ++
  ((finditer matchMiscAt t).map (fun pg => Hdr.mk pg.1 .hMisc pg.2)) ++
  ((finditer (matchWordNumAt "theorem".toList) t).map (fun pg => Hdr.mk pg.1 .hThm pg.2)) ++
  ((finditer (matchWordNumAt "definition".toList) t).map (fun pg => Hdr.mk pg.1 .hDef pg.2)) ++
  ((scanSec t.length true 0 t).map (fun pg => Hdr.mk pg.1 .hSec pg.2))

/-- Stable insertion by position (`headers.sort(key=lambda x: x['pos'])`). -/
def insHdr (x : Hdr) : List Hdr → List Hdr
  | [] => [x]
  | y :: ys => if y.pos < x.pos then y :: insHdr x ys else x :: y :: ys

def sortHdrs : List Hdr → List Hdr
  | [] => []
  | x :: xs => insHdr x (sortHdrs xs)

/-- Merge page images into the buffer, deduplicating by image id
(lines 123-125 / 216-218). -/
def mergeImgs (cur : List ImgRec) (pis : List ImgRec) : List ImgRec :=
  pis.foldl
    (fun cur img =>
      if !(cur.any (fun e => e.imageId == img.imageId)) then cur ++ [img] else cur)
    cur

/-- Start a new buffer for an opening header (lines 162-202); `none` for the
theorem / definition / section headers, which never open a collection.  An
exercise header seeds the buffer with the page text from the header on. -/
def openBuf (h : Hdr) (pageText : Txt) (pageNum : ℕ) (pis : List ImgRec) :
    Option BufferRec :=
  match h.kind with
  | .hExer => some ⟨pageText.drop h.pos, h.num, pageNum, false, mergeImgs' pis⟩
  | .hExam => some ⟨[], h.num, pageNum, true, mergeImgs' pis⟩
  | .hMisc => some ⟨[], "Miscellaneous".toList, pageNum, false, mergeImgs' pis⟩
  | _ => none
where
  /-- `'images': []` followed by `.extend(current_page_images)`. -/
  mergeImgs' (pis : List ImgRec) : List ImgRec := pis

/-- Result of the left-to-right walk over a page's sorted headers. -/
structure WalkOut where
  pos : ℕ
  collecting : Bool
  buf : BufferRec
  chunks : List Chunk
deriving DecidableEq

/-- The header walk of `chunk_document` (lines 110-209): handle the segment
before each header, force-close any open collection, then possibly open a new
one. -/
def walkHdrs (mt : ℕ) (docId cl : Txt) (ch : ℕ × Txt) (secName : Txt)
    (pageText : Txt) (pageNum : ℕ) (pis : List ImgRec) (pts : List TblRec) :
    List Hdr → ℕ → Bool → BufferRec → WalkOut
  | [], pos, coll, buf => ⟨pos, coll, buf, []⟩
  | h :: rest, pos, coll, buf =>
    let seg := stripL ((pageText.drop pos).take (h.pos - pos))
    let buf1 : BufferRec :=
      if seg ≠ [] ∧ coll then
        { buf with text := buf.text ++ '\n' :: '\n' :: seg,
                   images := mergeImgs buf.images pis }
      else buf
    let cs1 : List Chunk :=
      if seg ≠ [] ∧ ¬ coll then
        simpleChunkList docId cl ch secName pageNum seg pis pts
      else []
    let cs2 : List Chunk :=
      if coll then createCollectionChunk mt docId cl ch secName buf1 buf1.images pts
      else []
    let ob := openBuf h pageText pageNum pis
    let w := walkHdrs mt docId cl ch secName pageText pageNum pis pts rest h.pos
      ob.isSome (ob.getD buf1)
    ⟨w.pos, w.collecting, w.buf, cs1 ++ cs2 ++ w.chunks⟩

/-- The document-level state threaded across pages. -/
structure DocState where
  chapter : ℕ × Txt
  secName : Txt
  collecting : Bool
  buf : BufferRec
deriving DecidableEq

def initState : DocState :=
  ⟨(0, "Introduction".toList), [], false, ⟨[], [], 0, false, []⟩⟩

/-- One iteration of the page loop of `chunk_document` (lines 66-234): header
walk, tail segment, then the CHAPTER update — which runs only after all of
this page's chunks were created. -/
def processPage (mt : ℕ) (docId cl : Txt) (st : DocState) (page : PageRec) :
    DocState × List Chunk :=
  let hdrs := sortHdrs (pageHeaders page.text)
  let w := walkHdrs mt docId cl st.chapter st.secName page.text page.pageNumber
    page.images page.tables hdrs 0 st.collecting st.buf
  let tail := stripL (page.text.drop w.pos)
  let buf2 : BufferRec :=
    if tail ≠ [] ∧ w.collecting then
      { w.buf with text := w.buf.text ++ '\n' :: '\n' :: tail,
                   images := mergeImgs w.buf.images page.images }
    else w.buf
  let cs2 : List Chunk :=
    if tail ≠ [] ∧ ¬ w.collecting then
      chunkPage mt docId cl st.chapter st.secName page.pageNumber tail
        page.images page.tables
    else []
  let ch2 :=
    match searchChapter page.text with
    | some n => (n, "Chapter ".toList ++ natChars n)
    | none => st.chapter
  (⟨ch2, st.secName, w.collecting, buf2⟩, w.chunks ++ cs2)

def foldPages (mt : ℕ) (docId cl : Txt) : DocState → List PageRec →
    DocState × List Chunk
  | st, [] => (st, [])
  | st, p :: ps =>
    let (st1, cs1) := processPage mt docId cl st p
    let (st2, cs2) := foldPages mt docId cl st1 ps
    (st2, cs1 ++ cs2)

/-- `StructureAwareChunker.chunk_document`: the page loop followed by the
end-of-document flush of any open collection (lines 238-249; the flush passes
no page tables). -/
def chunkDocument (mt : ℕ) (docId cl : Txt) (pages : List PageRec) : List Chunk :=
  let (st, cs) := foldPages mt docId cl initState pages
  cs ++
    (if st.collecting ∧ st.buf.text ≠ [] then
       createCollectionChunk mt docId cl st.chapter st.secName st.buf st.buf.images []
     else [])

/-!  ## Hybrid retrieval (`HybridRetriever.retrieve`, lines 49-134)

Candidate lists are `(chunk_id, score)` pairs as returned by the vector store
and the keyword retriever; the fusion only uses the ranks.  The metadata
re-check inside `apply_rrf` is abstracted to a predicate `keep` on chunk ids
(`keep = fun _ => true` when `filters` is `None`), and chunk-id resolution
against the metadata store to `resolve : Txt → Option α`.  Scores are exact
rationals in place of Python floats. -/

/-- Retrieval configuration: `self.alpha = config.get('alpha', 0.7)`. -/
structure RetCfg where
  alpha : ℚ
deriving DecidableEq

/-- `config.get('alpha', 0.7)`'s default. -/
def defaultAlphaVal : ℚ := 7 / 10

/-- The dynamic weighting step (lines 69-77): entity-heavy queries get the
hard-coded `current_alpha = 0.3`. -/
def chooseAlpha (cfg : RetCfg) (q : Txt) : ℚ :=
  if isEntityQuery q then 3 / 10 else cfg.alpha

/-- Python-dict insert-or-accumulate on an insertion-ordered association
list: `fused_scores[chunk_id] += v`, creating the key at the end if new. -/
def addScore (d : List (Txt × ℚ)) (id : Txt) (v : ℚ) : List (Txt × ℚ) :=
  if d.any (fun e => e.1 = id) then
    d.map (fun e => if e.1 = id then (e.1, e.2 + v) else e)
  else d ++ [(id, v)]

/-- `apply_rrf(results, rank_constant=60, weight=w)` (lines 95-110): each kept
element at 0-based rank `r` contributes `w * (1 / (60 + r + 1))`. -/
def applyRrf (keep : Txt → Bool) (w : ℚ) :
    List (Txt × ℚ) → ℕ → List (Txt × ℚ) → List (Txt × ℚ)
  | d, _, [] => d
  | d, r, (id, _) :: rest =>
    applyRrf keep w
      (if keep id then addScore d id (w * (1 / (60 + (r : ℚ) + 1))) else d)
      (r + 1) rest

/-- The fused score dict after both `apply_rrf` calls (lines 112-113):
vector list weighted `α`, keyword list weighted `1 - α`. -/
def fusedList (keep : Txt → Bool) (α : ℚ) (vec lex : List (Txt × ℚ)) :
    List (Txt × ℚ) :=
  applyRrf keep (1 - α) (applyRrf keep α [] 0 vec) 0 lex

/-- The fused score of a chunk id; ids absent from the dict score 0. -/
def scoreOf (d : List (Txt × ℚ)) (id : Txt) : ℚ :=
  match d.find? (fun e => e.1 = id) with
  | some e => e.2
  | none => 0

/-- Stable insertion for descending sort: `x` goes before the first element
whose score is not greater, so equal scores keep first-seen order
(`sorted(..., key=lambda x: x[1], reverse=True)` is stable). -/
def insScore (x : Txt × ℚ) : List (Txt × ℚ) → List (Txt × ℚ)
  | [] => [x]
  | y :: ys => if y.2 > x.2 then y :: insScore x ys else x :: y :: ys

def sortScores : List (Txt × ℚ) → List (Txt × ℚ)
  | [] => []
  | x :: xs => insScore x (sortScores xs)

/-- `RetrievalResult`. -/
structure RetRes (α : Type) where
  chunk : α
  score : ℚ
  rank : ℕ

/-- The resolution loop (lines 119-131): `enumerate(sorted_results, 1)`
assigns ranks over all sorted entries; unresolvable ids are skipped but still
consume their rank. -/
def resolveAcc {α : Type} (resolve : Txt → Option α) :
    ℕ → List (Txt × ℚ) → List (RetRes α)
  | _, [] => []
  | r, (id, s) :: rest =>
    match resolve id with
    | some c => ⟨c, s, r⟩ :: resolveAcc resolve (r + 1) rest
    | none => resolveAcc resolve (r + 1) rest

/-- `HybridRetriever.retrieve`: weight choice, fusion, descending sort,
top-k, resolution. -/
def hybridRetrieve {α : Type} (cfg : RetCfg) (q : Txt) (k : ℕ)
    (vec lex : List (Txt × ℚ)) (keep : Txt → Bool)
    (resolve : Txt → Option α) : List (RetRes α) :=
  resolveAcc resolve 1
    ((sortScores (fusedList keep (chooseAlpha cfg q) vec lex)).take k)

/-- The reciprocal-rank contribution of one list to one chunk, as the spec
states it: `weight/(rank_constant + rank)` at the 1-based rank of the chunk in
the list, `0` if absent (the weight is applied by the caller). -/
def specContrib (keep : Txt → Bool) (l : List (Txt × ℚ)) (id : Txt) : ℚ :=
  match l.findIdx? (fun e => e.1 = id) with
  | some i => if keep id then 1 / (60 + (i : ℚ) + 1) else 0
  | none => 0

/-- The total contribution one candidate list makes to chunk `id` under
`apply_rrf`, element by element (coincides with `specContrib` when the list's
ids are duplicate-free). -/
def contribSum (keep : Txt → Bool) (id : Txt) : ℕ → List (Txt × ℚ) → ℚ
  | _, [] => 0
  | r, (j, _) :: rest =>
    (if j = id ∧ keep j then 1 / (60 + (r : ℚ) + 1) else 0) +
      contribSum keep id (r + 1) rest

/-!  ## Auxiliary definitions for the claims -/

/-- Map with an explicit running index (used to state which part number each
split group receives). -/
def mapFrom {α β : Type} (f : ℕ → α → β) : ℕ → List α → List β
  | _, [] => []
  | k, x :: xs => f k x :: mapFrom f (k + 1) xs

/-- The spec's notion (C7) of an explicit numeric entity reference: example,
exercise, question or problem followed by a number, or an `examples 2 to 5`
style range.  This follows the spec's words, to be compared with the code's
`extract_example_number`. -/
def specEntityRef (q : Txt) : Bool :=
  searchWordNumStar "example".toList q || searchWordNumStar "exercise".toList q ||
  searchWordNumStar "question".toList q || searchWordNumStar "problem".toList q ||
  (searchOpt matchRangeAt q).isSome

/-- The CHAPTER headers found across the pages (in page order) are
non-decreasing, starting from chapter `c`. -/
def chapOkB : ℕ → List PageRec → Bool
  | _, [] => true
  | c, p :: ps =>
    match searchChapter p.text with
    | some n => decide (c ≤ n) && chapOkB n ps
    | none => chapOkB c ps

/-- Scenario input of C3 (spec §8): page 1. -/
def c3page1 : PageRec := ⟨1, "EXERCISE 3.1\n1. Solve x.".toList, [], []⟩

/-- Scenario input of C3 (spec §8): page 2. -/
def c3page2 : PageRec := ⟨2, "MISCELLANEOUS EXERCISE\n...".toList, [], []⟩

/-- C9 counterexample pages: chapter headers 5 then 2, out of order. -/
def c9pageA : PageRec := ⟨1, "CHAPTER 5\nAlpha beta.".toList, [], []⟩

def c9pageB : PageRec := ⟨2, "CHAPTER 2\nGamma delta.".toList, [], []⟩

def c9pageC : PageRec := ⟨3, "Epsilon zeta.".toList, [], []⟩

/-- C1 counterexample: an image accumulated on the buffer's page. -/
def c1img : ImgRec := ⟨"img_p3_1".toList, "p3_1.png".toList, 3⟩

/-- C1 counterexample: a small collection buffer (within the size bound) whose
text cites no figure. -/
def c1buf : BufferRec := ⟨"Consider the shape shown.".toList, "3.1".toList, 3, false, [c1img]⟩

/-- C2 counterexample: with `max_tokens = 2` (`max_chars = 7`), two 3-character
paragraphs joined by the 2-character separator make one 8-character part. -/
def c2buf : BufferRec := ⟨"aaa\n\naaa".toList, "3.1".toList, 4, false, []⟩

/-!  # Theorems -/

/-!  ## Whitespace lemmas -/

theorem lstripL_eq_nil_iff {s : Txt} : lstripL s = [] ↔ ∀ c ∈ s, isSpc c = true := by
  simp [lstripL, List.dropWhile_eq_nil_iff]

theorem stripL_eq_nil_iff {s : Txt} : stripL s = [] ↔ ∀ c ∈ s, isSpc c = true := by
  unfold stripL rstripL
  rw [List.reverse_eq_nil_iff, List.dropWhile_eq_nil_iff]
  constructor
  · intro h c hc
    have hsplit := List.takeWhile_append_dropWhile (p := isSpc) (l := s)
    rw [← hsplit] at hc
    rcases List.mem_append.mp hc with hmem | hmem
    · exact List.mem_takeWhile_imp hmem
    · exact h c (List.mem_reverse.mpr hmem)
  · intro h c hc
    refine h c ((List.dropWhile_sublist isSpc).mem (List.mem_reverse.mp hc))

theorem stripL_ne_nil_append {a b : Txt} (h : stripL b ≠ []) :
    stripL (a ++ b) ≠ [] := by
  intro hall
  apply h
  rw [stripL_eq_nil_iff] at hall ⊢
  intro c hc
  exact hall c (List.mem_append.mpr (Or.inr hc))

theorem stripL_ne_nil_append_left {a b : Txt} (h : stripL a ≠ []) :
    stripL (a ++ b) ≠ [] := by
  intro hall
  apply h
  rw [stripL_eq_nil_iff] at hall ⊢
  intro c hc
  exact hall c (List.mem_append.mpr (Or.inl hc))

/-!  ## Field-preservation lemmas for linking and rescue -/

theorem linkContent_text (c : Chunk) (pis : List ImgRec) (pts : List TblRec) :
    (linkContent c pis pts).textContent = c.textContent := by
  unfold linkContent; split <;> rfl

theorem linkContent_page (c : Chunk) (pis : List ImgRec) (pts : List TblRec) :
    (linkContent c pis pts).pageNumber = c.pageNumber := by
  unfold linkContent; split <;> rfl

theorem linkContent_chap (c : Chunk) (pis : List ImgRec) (pts : List TblRec) :
    (linkContent c pis pts).chapterNumber = c.chapterNumber := by
  unfold linkContent; split <;> rfl

theorem linkIf_text (c : Chunk) (pis : List ImgRec) (pts : List TblRec) :
    (linkIf c pis pts).textContent = c.textContent := by
  unfold linkIf; split
  · exact linkContent_text c pis pts
  · rfl

theorem linkIf_page (c : Chunk) (pis : List ImgRec) (pts : List TblRec) :
    (linkIf c pis pts).pageNumber = c.pageNumber := by
  unfold linkIf; split
  · exact linkContent_page c pis pts
  · rfl

theorem linkIf_chap (c : Chunk) (pis : List ImgRec) (pts : List TblRec) :
    (linkIf c pis pts).chapterNumber = c.chapterNumber := by
  unfold linkIf; split
  · exact linkContent_chap c pis pts
  · rfl

/-- Orphan rescue only touches the `images` field: any selector blind to
image appends is preserved across the whole rescue pass. -/
theorem rescueOrphans_map_eq {β : Type} (sel : Chunk → β)
    (hsel : ∀ c i, sel { c with images := c.images ++ [i] } = sel c) :
    ∀ (os : List ImgRec) (cs : List Chunk),
      (rescueOrphans cs os).map sel = cs.map sel := by
  intro os
  induction os with
  | nil => intro cs; rfl
  | cons o rest ih =>
    intro cs
    show (rescueOrphans (rescueStep cs o) rest).map sel = cs.map sel
    rw [ih (rescueStep cs o)]
    unfold rescueStep
    split
    · rw [List.map_map]
      apply List.map_congr_left
      intro c _
      simp only [Function.comp_apply]
      split
      · exact hsel c o
      · rfl
    · rfl

/-- Membership transfer along `rescueOrphans` for image-blind selectors. -/
theorem rescueOrphans_mem {β : Type} (sel : Chunk → β)
    (hsel : ∀ c i, sel { c with images := c.images ++ [i] } = sel c)
    {os : List ImgRec} {cs : List Chunk} {c : Chunk}
    (hc : c ∈ rescueOrphans cs os) : ∃ c0 ∈ cs, sel c0 = sel c := by
  have hmap := rescueOrphans_map_eq sel hsel os cs
  have : sel c ∈ (rescueOrphans cs os).map sel := List.mem_map_of_mem sel hc
  rw [hmap] at this
  obtain ⟨c0, hc0, he⟩ := List.mem_map.mp this
  exact ⟨c0, hc0, he⟩

/-!  ## Structure of the split parts -/

theorem mkPart_text (docId cl : Txt) (ch : ℕ × Txt) (secName : Txt)
    (buf : BufferRec) (pis : List ImgRec) (pts : List TblRec) (n : ℕ) (core : Txt) :
    (mkPart docId cl ch secName buf pis pts n core).textContent = partText buf n core := by
  unfold mkPart
  rw [linkIf_text]
  rfl

theorem mkPart_page (docId cl : Txt) (ch : ℕ × Txt) (secName : Txt)
    (buf : BufferRec) (pis : List ImgRec) (pts : List TblRec) (n : ℕ) (core : Txt) :
    (mkPart docId cl ch secName buf pis pts n core).pageNumber = buf.startPage := by
  unfold mkPart
  rw [linkIf_page]
  rfl

theorem mkPart_chap (docId cl : Txt) (ch : ℕ × Txt) (secName : Txt)
    (buf : BufferRec) (pis : List ImgRec) (pts : List TblRec) (n : ℕ) (core : Txt) :
    (mkPart docId cl ch secName buf pis pts n core).chapterNumber = ch.1 := by
  unfold mkPart
  rw [linkIf_chap]
  rfl

theorem partText_strip_ne {buf : BufferRec} {n : ℕ} {core : Txt}
    (h : stripL core ≠ []) : stripL (partText buf n core) ≠ [] := by
  unfold partText
  split
  · exact stripL_ne_nil_append h
  · exact h

/-- Every chunk emitted by the splitting loop is `mkPart` of a part number and
a core text with non-blank strip, provided the running `cur` is empty or
non-blank. -/
theorem splitGo_mem {mt : ℕ} {docId cl : Txt} {ch : ℕ × Txt} {secName : Txt}
    {buf : BufferRec} {pis : List ImgRec} {pts : List TblRec} :
    ∀ (paras : List Txt) (cur : Txt) (n : ℕ),
      (cur = [] ∨ stripL cur ≠ []) →
      ∀ c ∈ splitGo mt docId cl ch secName buf pis pts paras cur n,
        ∃ m cr, stripL cr ≠ [] ∧ c = mkPart docId cl ch secName buf pis pts m cr := by
  intro paras
  induction paras with
  | nil =>
    intro cur n _ c hc
    unfold splitGo at hc
    split at hc
    · rcases List.mem_singleton.mp hc with rfl
      exact ⟨n, cur, by assumption, rfl⟩
    · exact absurd hc (List.not_mem_nil c)
  | cons p rest ih =>
    intro cur n hcur c hc
    unfold splitGo at hc
    split at hc
    · exact ih cur n hcur c hc
    · split at hc
      · rcases List.mem_cons.mp hc with rfl | hc'
        · rename_i hcond
          refine ⟨n, cur, ?_, rfl⟩
          rcases hcur with rfl | h
          · exact absurd rfl hcond.2
          · exact h
        · exact ih p (n + 1) (Or.inr (by assumption)) c hc'
      · have hp : stripL p ≠ [] := by assumption
        refine ih _ n ?_ c hc
        split
        · exact Or.inr hp
        · refine Or.inr (stripL_ne_nil_append ?_)
          intro hz
          apply hp
          rw [stripL_eq_nil_iff] at hz ⊢
          intro x hx
          exact hz x (by simp [hx])

/-!  ## Chunk-producer lemmas -/

theorem createSimpleChunk_strip {docId cl : Txt} {ch : ℕ × Txt} {secName : Txt}
    {pageNum : ℕ} {text : Txt} {c : Chunk}
    (h : createSimpleChunk docId cl ch secName pageNum text = some c) :
    stripL c.textContent ≠ [] := by
  unfold createSimpleChunk at h
  split at h
  · exact absurd h (by simp)
  · rename_i hne
    injection h with h'
    subst h'
    exact hne

theorem createSimpleChunk_chap {docId cl : Txt} {ch : ℕ × Txt} {secName : Txt}
    {pageNum : ℕ} {text : Txt} {c : Chunk}
    (h : createSimpleChunk docId cl ch secName pageNum text = some c) :
    c.chapterNumber = ch.1 := by
  unfold createSimpleChunk at h
  split at h
  · exact absurd h (by simp)
  · injection h with h'
    subst h'
    rfl

theorem simpleChunkList_strip {docId cl : Txt} {ch : ℕ × Txt} {secName : Txt}
    {pageNum : ℕ} {text : Txt} {pis : List ImgRec} {pts : List TblRec} :
    ∀ c ∈ simpleChunkList docId cl ch secName pageNum text pis pts,
      stripL c.textContent ≠ [] := by
  intro c hc
  unfold simpleChunkList at hc
  split at hc
  · rename_i c0 h0
    rcases List.mem_singleton.mp hc with rfl
    rw [linkIf_text]
    exact createSimpleChunk_strip h0
  · exact absurd hc (List.not_mem_nil c)

theorem simpleChunkList_chap {docId cl : Txt} {ch : ℕ × Txt} {secName : Txt}
    {pageNum : ℕ} {text : Txt} {pis : List ImgRec} {pts : List TblRec} :
    ∀ c ∈ simpleChunkList docId cl ch secName pageNum text pis pts,
      c.chapterNumber = ch.1 := by
  intro c hc
  unfold simpleChunkList at hc
  split at hc
  · rename_i c0 h0
    rcases List.mem_singleton.mp hc with rfl
    rw [linkIf_chap]
    exact createSimpleChunk_chap h0
  · exact absurd hc (List.not_mem_nil c)

theorem chunkPageGo_strip {mt : ℕ} {docId cl : Txt} {ch : ℕ × Txt}
    {secName : Txt} {pageNum : ℕ} {pis : List ImgRec} {pts : List TblRec} :
    ∀ (paras : List Txt) (cur : Txt),
      (cur = [] ∨ stripL cur ≠ []) →
      ∀ c ∈ chunkPageGo mt docId cl ch secName pageNum pis pts paras cur,
        stripL c.textContent ≠ [] := by
  intro paras
  induction paras with
  | nil =>
    intro cur _ c hc
    unfold chunkPageGo at hc
    split at hc
    · exact simpleChunkList_strip c hc
    · exact absurd hc (List.not_mem_nil c)
  | cons p rest ih =>
    intro cur hcur c hc
    unfold chunkPageGo at hc
    split at hc
    · exact ih cur hcur c hc
    · split at hc
      · rcases List.mem_append.mp hc with hc' | hc'
        · exact simpleChunkList_strip c hc'
        · exact ih p (Or.inr (by assumption)) c hc'
      · have hp : stripL p ≠ [] := by assumption
        refine ih _ ?_ c hc
        split
        · exact Or.inr hp
        · refine Or.inr (stripL_ne_nil_append ?_)
          intro hz
          apply hp
          rw [stripL_eq_nil_iff] at hz ⊢
          intro x hx
          exact hz x (by simp [hx])

theorem chunkPageGo_chap {mt : ℕ} {docId cl : Txt} {ch : ℕ × Txt}
    {secName : Txt} {pageNum : ℕ} {pis : List ImgRec} {pts : List TblRec} :
    ∀ (paras : List Txt) (cur : Txt),
      ∀ c ∈ chunkPageGo mt docId cl ch secName pageNum pis pts paras cur,
        c.chapterNumber = ch.1 := by
  intro paras
  induction paras with
  | nil =>
    intro cur c hc
    unfold chunkPageGo at hc
    split at hc
    · exact simpleChunkList_chap c hc
    · exact absurd hc (List.not_mem_nil c)
  | cons p rest ih =>
    intro cur c hc
    unfold chunkPageGo at hc
    split at hc
    · exact ih cur c hc
    · split at hc
      · rcases List.mem_append.mp hc with hc' | hc'
        · exact simpleChunkList_chap c hc'
        · exact ih p c hc'
      · exact ih _ c hc

theorem createCollectionChunk_strip {mt : ℕ} {docId cl : Txt} {ch : ℕ × Txt}
    {secName : Txt} {buf : BufferRec} {pis : List ImgRec} {pts : List TblRec} :
    ∀ c ∈ createCollectionChunk mt docId cl ch secName buf pis pts,
      stripL c.textContent ≠ [] := by
  intro c hc
  unfold createCollectionChunk at hc
  split at hc
  · exact absurd hc (List.not_mem_nil c)
  · rename_i hne
    split at hc
    · rcases List.mem_singleton.mp hc with rfl
      rw [linkIf_text]
      exact hne
    · have hparts :
          ∀ c' ∈ collParts mt docId cl ch secName buf pis pts,
            stripL c'.textContent ≠ [] := by
        intro c' hc'
        obtain ⟨m, cr, hcr, rfl⟩ :=
          splitGo_mem (splitNN buf.text) [] 1 (Or.inl rfl) c' hc'
        rw [mkPart_text]
        exact partText_strip_ne hcr
      split at hc
      · obtain ⟨c0, hc0, he⟩ :=
          rescueOrphans_mem Chunk.textContent (fun _ _ => rfl) hc
        rw [← he]
        exact hparts c0 hc0
      · exact hparts c hc

theorem createCollectionChunk_chap {mt : ℕ} {docId cl : Txt} {ch : ℕ × Txt}
    {secName : Txt} {buf : BufferRec} {pis : List ImgRec} {pts : List TblRec} :
    ∀ c ∈ createCollectionChunk mt docId cl ch secName buf pis pts,
      c.chapterNumber = ch.1 := by
  intro c hc
  unfold createCollectionChunk at hc
  split at hc
  · exact absurd hc (List.not_mem_nil c)
  · split at hc
    · rcases List.mem_singleton.mp hc with rfl
      rw [linkIf_chap]
      rfl
    · have hparts :
          ∀ c' ∈ collParts mt docId cl ch secName buf pis pts,
            c'.chapterNumber = ch.1 := by
        intro c' hc'
        obtain ⟨m, cr, hcr, rfl⟩ :=
          splitGo_mem (splitNN buf.text) [] 1 (Or.inl rfl) c' hc'
        rw [mkPart_chap]
      split at hc
      · obtain ⟨c0, hc0, he⟩ :=
          rescueOrphans_mem Chunk.chapterNumber (fun _ _ => rfl) hc
        rw [← he]
        exact hparts c0 hc0
      · exact hparts c hc

theorem createCollectionChunk_page {mt : ℕ} {docId cl : Txt} {ch : ℕ × Txt}
    {secName : Txt} {buf : BufferRec} {pis : List ImgRec} {pts : List TblRec} :
    ∀ c ∈ createCollectionChunk mt docId cl ch secName buf pis pts,
      c.pageNumber = buf.startPage := by
  intro c hc
  unfold createCollectionChunk at hc
  split at hc
  · exact absurd hc (List.not_mem_nil c)
  · split at hc
    · rcases List.mem_singleton.mp hc with rfl
      rw [linkIf_page]
      rfl
    · have hparts :
          ∀ c' ∈ collParts mt docId cl ch secName buf pis pts,
            c'.pageNumber = buf.startPage := by
        intro c' hc'
        obtain ⟨m, cr, hcr, rfl⟩ :=
          splitGo_mem (splitNN buf.text) [] 1 (Or.inl rfl) c' hc'
        rw [mkPart_page]
      split at hc
      · obtain ⟨c0, hc0, he⟩ :=
          rescueOrphans_mem Chunk.pageNumber (fun _ _ => rfl) hc
        rw [← he]
        exact hparts c0 hc0
      · exact hparts c hc

/-- Every chunk the header walk emits comes either from a standalone segment
(`_create_simple_chunk`) or from closing a collection, both with the walk's
(page-constant) chapter context. -/
theorem walkHdrs_mem {mt : ℕ} {docId cl : Txt} {ch : ℕ × Txt} {secName : Txt}
    {pageText : Txt} {pageNum : ℕ} {pis : List ImgRec} {pts : List TblRec} :
    ∀ (hdrs : List Hdr) (pos : ℕ) (coll : Bool) (buf : BufferRec) (c : Chunk),
      c ∈ (walkHdrs mt docId cl ch secName pageText pageNum pis pts hdrs pos coll buf).chunks →
      (∃ seg, c ∈ simpleChunkList docId cl ch secName pageNum seg pis pts) ∨
      (∃ b : BufferRec, c ∈ createCollectionChunk mt docId cl ch secName b b.images pts) := by
  intro hdrs
  induction hdrs with
  | nil =>
    intro pos coll buf c hc
    exact absurd hc (List.not_mem_nil c)
  | cons h rest ih =>
    intro pos coll buf c hc
    unfold walkHdrs at hc
    rcases List.mem_append.mp hc with hc1 | hc23
    · rcases List.mem_append.mp hc1 with hcs | hcc
      · split at hcs
        · exact Or.inl ⟨_, hcs⟩
        · exact absurd hcs (List.not_mem_nil c)
      · split at hcc
        · exact Or.inr ⟨_, hcc⟩
        · exact absurd hcc (List.not_mem_nil c)
    · exact ih _ _ _ c hc23

/-- Every chunk emitted while processing one page comes from one of the three
chunk producers, each using the pre-page chapter context `st.chapter`. -/
theorem processPage_mem {mt : ℕ} {docId cl : Txt} {st : DocState} {page : PageRec}
    {c : Chunk} (hc : c ∈ (processPage mt docId cl st page).2) :
    (∃ seg, c ∈ simpleChunkList docId cl st.chapter st.secName page.pageNumber seg
        page.images page.tables) ∨
    (∃ b : BufferRec, c ∈ createCollectionChunk mt docId cl st.chapter st.secName b
        b.images page.tables) ∨
    (∃ tail, c ∈ chunkPage mt docId cl st.chapter st.secName page.pageNumber tail
        page.images page.tables) := by
  unfold processPage at hc
  rcases List.mem_append.mp hc with hcw | hct
  · rcases walkHdrs_mem _ _ _ _ c hcw with h1 | h2
    · exact Or.inl h1
    · exact Or.inr (Or.inl h2)
  · split at hct
    · exact Or.inr (Or.inr ⟨_, hct⟩)
    · exact absurd hct (List.not_mem_nil c)

/-!  ## C10: chunks are never whitespace-only -/

/-- C10: every chunk returned by `chunk_document` has non-empty,
non-whitespace-only `text_content`; whitespace-only segments, buffers and
split parts are filtered by the guards at lines 589-591, 350-352 and
439-443. -/
theorem c10_nonblank (mt : ℕ) (docId cl : Txt) (pages : List PageRec) :
    ∀ c ∈ chunkDocument mt docId cl pages,
      c.textContent ≠ [] ∧ stripL c.textContent ≠ [] := by
  have hone : ∀ (st : DocState) (p : PageRec) (c : Chunk),
      c ∈ (processPage mt docId cl st p).2 → stripL c.textContent ≠ [] := by
    intro st p c hc
    rcases processPage_mem hc with ⟨seg, h⟩ | ⟨b, h⟩ | ⟨tail, h⟩
    · exact simpleChunkList_strip c h
    · exact createCollectionChunk_strip c h
    · exact chunkPageGo_strip _ [] (Or.inl rfl) c h
  have hfold : ∀ (ps : List PageRec) (st : DocState) (c : Chunk),
      c ∈ (foldPages mt docId cl st ps).2 → stripL c.textContent ≠ [] := by
    intro ps
    induction ps with
    | nil =>
      intro st c hc
      exact absurd hc (List.not_mem_nil c)
    | cons p rest ih =>
      intro st c hc
      unfold foldPages at hc
      rcases List.mem_append.mp hc with hc1 | hc2
      · exact hone st p c hc1
      · exact ih _ c hc2
  intro c hc
  have hstrip : stripL c.textContent ≠ [] := by
    unfold chunkDocument at hc
    rcases List.mem_append.mp hc with hc1 | hc2
    · exact hfold pages initState c hc1
    · split at hc2
      · exact createCollectionChunk_strip c hc2
      · exact absurd hc2 (List.not_mem_nil c)
  refine ⟨?_, hstrip⟩
  intro hnil
  apply hstrip
  rw [hnil]
  rfl

theorem c10_nonblank_witness :
    ((chunkDocument 800 "doc1".toList "11".toList [c3page1, c3page2]).getD 0
        ⟨[], [], 0, [], [], .txt, [], 0, [], [], none, none⟩).textContent ≠ [] :=
  (c10_nonblank 800 "doc1".toList "11".toList [c3page1, c3page2]
    ((chunkDocument 800 "doc1".toList "11".toList [c3page1, c3page2]).getD 0
      ⟨[], [], 0, [], [], .txt, [], 0, [], [], none, none⟩)
    (by decide)).1

/-!  ## C3: the exercise/miscellaneous scenario -/

/-- C3: for page 1 `"EXERCISE 3.1\n1. Solve x."` and page 2
`"MISCELLANEOUS EXERCISE\n..."`, `chunk_document` (at the default
`max_tokens = 800`) produces exactly one EXERCISE chunk labeled `"3.1"`, its
text contains `"Solve x."`, and its text does not contain
`"MISCELLANEOUS"`. -/
theorem c3_scenario :
    ((chunkDocument 800 "doc1".toList "11".toList [c3page1, c3page2]).filter
        (fun c => c.contentType = CType.exer ∧ c.exerciseNumber = some "3.1".toList)).length
      = 1 ∧
    ((chunkDocument 800 "doc1".toList "11".toList [c3page1, c3page2]).filter
        (fun c => c.contentType = CType.exer ∧ c.exerciseNumber = some "3.1".toList)).all
      (fun c => isSubstr "Solve x.".toList c.textContent &&
        !(isSubstr "MISCELLANEOUS".toList c.textContent)) = true := by
  decide

/-!  ## C6: entity-adaptive fusion weight -/

/-- C6 counterexample: with a configured default `alpha = 0.2`, the entity
query `"Example 5"` gets the hard-coded `current_alpha = 0.3`, which is *not*
lower than the configured default — refuting "uses the configured low fusion
weight α (lower than the default)". -/
theorem c6_counterexample :
    chooseAlpha ⟨1/5⟩ "Example 5".toList = 3/10 ∧ ¬ ((3 : ℚ)/10 < 1/5) := by
  constructor
  · show (if isEntityQuery "Example 5".toList then (3 : ℚ)/10 else 1/5) = 3/10
    rw [show isEntityQuery "Example 5".toList = true from by decide]
    simp
  · norm_num

/-- C6 (amended): entity queries (example/exercise/question/problem number
patterns) get the fixed `α = 0.3` regardless of configuration, all other
queries get the configured default; `"Example 5"` yields `0.3`,
`"explain continuity"` yields the default; `0.3` is lower than the *default
configuration value* `0.7`, though not necessarily lower than an arbitrary
configured default. -/
theorem c6_amended (cfg : RetCfg) :
    chooseAlpha cfg "Example 5".toList = 3/10 ∧
    chooseAlpha cfg "explain continuity".toList = cfg.alpha ∧
    (∀ q : Txt, isEntityQuery q = true → chooseAlpha cfg q = 3/10) ∧
    (∀ q : Txt, isEntityQuery q = false → chooseAlpha cfg q = cfg.alpha) ∧
    (3 : ℚ)/10 < defaultAlphaVal := by
  refine ⟨?_, ?_, ?_, ?_, ?_⟩
  · show (if isEntityQuery "Example 5".toList then (3 : ℚ)/10 else cfg.alpha) = 3/10
    rw [show isEntityQuery "Example 5".toList = true from by decide]
    simp
  · show (if isEntityQuery "explain continuity".toList then (3 : ℚ)/10 else cfg.alpha) = cfg.alpha
    rw [show isEntityQuery "explain continuity".toList = false from by decide]
    simp
  · intro q hq
    simp [chooseAlpha, hq]
  · intro q hq
    simp [chooseAlpha, hq]
  · rw [defaultAlphaVal]; norm_num

theorem c6_amended_witness :
    chooseAlpha ⟨7/10⟩ "what is continuity".toList = (7 : ℚ)/10 :=
  (c6_amended ⟨7/10⟩).2.2.2.1 "what is continuity".toList (by decide)

/-!  ## C7: entity check before keyword families -/

/-- C7 counterexample: `"question 7"` is an explicit numeric entity reference
in the spec's sense, but the code's entity check (`extract_example_number`,
which only knows `example N` and `ex. N`) does not fire, and the query is
resolved by keyword-family matching instead. -/
theorem c7_counterexample :
    specEntityRef "question 7".toList = true ∧
    extractExampleNumber "question 7".toList = none ∧
    classify "question 7".toList = "exercise".toList := by
  refine ⟨by decide, by decide, by decide⟩

theorem kwClassGo_concept (ql : Txt) :
    ∀ fams : List (Txt × List Txt), (∀ fam ∈ fams, famHit fam.2 ql = false) →
      kwClassGo ql fams = "concept".toList := by
  intro fams
  induction fams with
  | nil => intro _; rfl
  | cons f rest ih =>
    intro h
    have hf : famHit f.2 ql = false := h f (List.mem_cons_self f rest)
    show (if famHit f.2 ql then f.1 else kwClassGo ql rest) = "concept".toList
    rw [hf]
    simp only [Bool.false_eq_true, if_false]
    exact ih (fun fam hm => h fam (List.mem_cons_of_mem f hm))

/-- C7 (amended): the entity check of `classify` recognizes only `example N`
and `ex. N` references; whenever it fires the query is classified `example`
before any keyword family is consulted (e.g. `"define example 3"`, despite
containing the `definition` keyword `define`), but exercise/question/problem
numbers and plural ranges fall through to keyword-family matching; a query
matching no entity reference and no keyword family is classified
`concept`. -/
theorem c7_amended :
    (∀ (q n : Txt), extractExampleNumber q = some n → classify q = "example".toList) ∧
    (∀ q : Txt, extractExampleNumber q = none →
      (∀ fam ∈ kwFamilies, famHit fam.2 (lowerL q) = false) →
      classify q = "concept".toList) ∧
    classify "define example 3".toList = "example".toList := by
  refine ⟨?_, ?_, by decide⟩
  · intro q n h
    show (if (extractExampleNumber q).isSome then "example".toList
          else kwClassGo (lowerL q) kwFamilies) = "example".toList
    rw [h]
    rfl
  · intro q h hfam
    show (if (extractExampleNumber q).isSome then "example".toList
          else kwClassGo (lowerL q) kwFamilies) = "concept".toList
    rw [h]
    simpa using kwClassGo_concept (lowerL q) kwFamilies hfam

theorem c7_amended_witness :
    classify "example 5".toList = "example".toList :=
  c7_amended.1 "example 5".toList "5".toList (by decide)

/-!  ## C8: range extraction -/

/-- C8: whenever a range of example numbers is extracted, the returned list is
the decimal rendering of the ascending run `start..end` with
`start ≤ end` (reversed bounds normalized) and span `end - start ≤ 10`. -/
theorem c8_range (q : Txt) (l : List Txt)
    (h : extractExampleRange q = some l) :
    ∃ s e : ℕ, s ≤ e ∧ e - s ≤ 10 ∧
      l = (List.range (e + 1 - s)).map (fun i => natChars (s + i)) := by
  unfold extractExampleRange at h
  cases hm : searchOpt matchRangeAt q with
  | none => rw [hm] at h; exact absurd h (by simp)
  | some ab =>
    obtain ⟨a, b⟩ := ab
    rw [hm] at h
    simp only [Option.some.injEq] at h
    set s := if b < a then b else a with hs
    set e := if b < a then a else b with he
    set e2 := (if e - s > 10 then s + 10 else e) with he2
    have hse : s ≤ e := by rw [hs, he]; split_ifs <;> omega
    refine ⟨s, e2, ?_, ?_, h.symm⟩
    · rw [he2]; split_ifs <;> omega
    · rw [he2]; split_ifs <;> omega

theorem c8_range_witness :
    ∃ s e : ℕ, s ≤ e ∧ e - s ≤ 10 ∧
      ([['2'], ['3'], ['4'], ['5']] : List Txt)
        = (List.range (e + 1 - s)).map (fun i => natChars (s + i)) :=
  c8_range "examples 2 to 5".toList [['2'], ['3'], ['4'], ['5']] (by decide)

/-!  ## C1: orphan rescue in the split branch -/

theorem foldl_pres {α β : Type} {P : β → Prop} (f : β → α → β)
    (hf : ∀ b a, P b → P (f b a)) : ∀ (l : List α) (b : β), P b → P (l.foldl f b) := by
  intro l
  induction l with
  | nil => intro b hb; exact hb
  | cons a rest ih => intro b hb; exact ih (f b a) (hf b a hb)

theorem imgLinked_eq_false {id : Txt} {imgs : List ImgRec} :
    imgLinked id imgs = false ↔ id ∉ imgs.map ImgRec.imageId := by
  unfold imgLinked
  rw [List.any_eq_false]
  constructor
  · intro h hmem
    obtain ⟨i, hi, he⟩ := List.mem_map.mp hmem
    exact h i hi (by simp [he])
  · intro h i hi
    simp only [beq_iff_eq]
    intro he
    exact h (List.mem_map.mpr ⟨i, hi, he⟩)

theorem imgLinked_append {id : Txt} {imgs : List ImgRec} {o : ImgRec} :
    imgLinked id (imgs ++ [o]) = (imgLinked id imgs || (o.imageId == id)) := by
  unfold imgLinked
  rw [List.any_append]
  simp

theorem linkImgsRef_nodup (refs : List Txt) (pis : List ImgRec) :
    ∀ cur : List ImgRec, (cur.map ImgRec.imageId).Nodup →
      ((linkImgsRef refs pis cur).map ImgRec.imageId).Nodup := by
  intro cur h
  unfold linkImgsRef
  refine foldl_pres (P := fun l => ((l.map ImgRec.imageId).Nodup)) _ ?_ refs cur h
  intro cur r hcur
  refine foldl_pres (P := fun l => ((l.map ImgRec.imageId).Nodup)) _ ?_ pis cur hcur
  intro cur img hcur2
  split
  · rename_i hcond
    rw [List.map_append]
    rw [List.nodup_append]
    refine ⟨hcur2, List.nodup_singleton _, ?_⟩
    intro x hx hx2
    simp only [List.map_cons, List.map_nil, List.mem_singleton] at hx2
    subst hx2
    have : imgLinked img.imageId cur = false := by
      rcases Bool.and_eq_true .. |>.mp hcond with ⟨_, hnl⟩
      simpa using hnl
    exact (imgLinked_eq_false.mp this) hx
  · exact hcur2

theorem linkIf_images_nodup {c : Chunk} {pis : List ImgRec} {pts : List TblRec}
    (h : (c.images.map ImgRec.imageId).Nodup) :
    (((linkIf c pis pts).images).map ImgRec.imageId).Nodup := by
  unfold linkIf linkContent
  split
  · split
    · exact h
    · exact linkImgsRef_nodup _ _ _ h
  · exact h

/-- Each split part starts with `images = []`, so after explicit linking its
image ids are duplicate-free. -/
theorem collParts_nodup {mt : ℕ} {docId cl : Txt} {ch : ℕ × Txt} {secName : Txt}
    {buf : BufferRec} {pis : List ImgRec} {pts : List TblRec} :
    ∀ c ∈ collParts mt docId cl ch secName buf pis pts,
      (c.images.map ImgRec.imageId).Nodup := by
  intro c hc
  obtain ⟨m, cr, _, rfl⟩ := splitGo_mem (splitNN buf.text) [] 1 (Or.inl rfl) c hc
  unfold mkPart
  exact linkIf_images_nodup (by simp [mkCollChunk])

theorem collParts_page {mt : ℕ} {docId cl : Txt} {ch : ℕ × Txt} {secName : Txt}
    {buf : BufferRec} {pis : List ImgRec} {pts : List TblRec} :
    ∀ c ∈ collParts mt docId cl ch secName buf pis pts,
      c.pageNumber = buf.startPage := by
  intro c hc
  obtain ⟨m, cr, _, rfl⟩ := splitGo_mem (splitNN buf.text) [] 1 (Or.inl rfl) c hc
  rw [mkPart_page]

/-- Membership characterization of one rescue step: a chunk is unchanged or
gets exactly the processed orphan appended. -/
theorem rescueStep_mem {cs : List Chunk} {o : ImgRec} {c' : Chunk}
    (h : c' ∈ rescueStep cs o) :
    ∃ c ∈ cs, c' = c ∨ c' = { c with images := c.images ++ [o] } := by
  unfold rescueStep at h
  split at h
  · obtain ⟨c, hc, he⟩ := List.mem_map.mp h
    refine ⟨c, hc, ?_⟩
    by_cases hcond : (c.pageNumber == o.pageNumber && !imgLinked o.imageId c.images) = true
    · rw [hcond] at he
      exact Or.inr he.symm
    · rw [Bool.not_eq_true] at hcond
      rw [hcond] at he
      exact Or.inl he.symm
  · exact ⟨c', h, Or.inl rfl⟩

/-- Predicates preserved by appending images are preserved by rescue. -/
theorem rescue_pred (P : Chunk → Prop)
    (hP : ∀ c o, P c → P { c with images := c.images ++ [o] }) :
    ∀ (os : List ImgRec) (cs : List Chunk), (∀ c ∈ cs, P c) →
      ∀ c ∈ rescueOrphans cs os, P c := by
  intro os
  induction os with
  | nil => intro cs h c hc; exact h c hc
  | cons o rest ih =>
    intro cs h c hc
    refine ih (rescueStep cs o) ?_ c hc
    intro c' hc'
    obtain ⟨c0, hc0, he⟩ := rescueStep_mem hc'
    rcases he with he | he
    · rw [he]; exact h c0 hc0
    · rw [he]; exact hP c0 o (h c0 hc0)

theorem rescue_nodup :
    ∀ (os : List ImgRec) (cs : List Chunk),
      (∀ c ∈ cs, (c.images.map ImgRec.imageId).Nodup) →
      ∀ c ∈ rescueOrphans cs os, (c.images.map ImgRec.imageId).Nodup := by
  intro os
  induction os with
  | nil => intro cs h c hc; exact h c hc
  | cons o rest ih =>
    intro cs h c hc
    refine ih (rescueStep cs o) ?_ c hc
    intro c' hc'
    unfold rescueStep at hc'
    split at hc'
    · obtain ⟨c0, hc0, he⟩ := List.mem_map.mp hc'
      subst he
      split
      · rename_i hcond
        rw [List.map_append, List.nodup_append]
        refine ⟨h c0 hc0, List.nodup_singleton _, ?_⟩
        intro x hx hx2
        simp only [List.map_cons, List.map_nil, List.mem_singleton] at hx2
        subst hx2
        have : imgLinked o.imageId c0.images = false := by
          rcases Bool.and_eq_true .. |>.mp hcond with ⟨_, hnl⟩
          simpa using hnl
        exact (imgLinked_eq_false.mp this) hx
      · exact h c0 hc0
    · exact h c' hc'

/-- If `o` is one of the orphans and every chunk of the group sits on `o`'s
page, then after rescue every chunk carries `o`. -/
theorem rescue_attach {o : ImgRec} :
    ∀ (os : List ImgRec) (cs : List Chunk), o ∈ os →
      (∀ c ∈ cs, c.pageNumber = o.pageNumber) →
      ∀ c ∈ rescueOrphans cs os, imgLinked o.imageId c.images = true := by
  intro os
  induction os with
  | nil => intro cs h; exact absurd h (List.not_mem_nil o)
  | cons o' rest ih =>
    intro cs ho hall c hc
    have hpages : ∀ c' ∈ rescueStep cs o', c'.pageNumber = o.pageNumber := by
      intro c' hc'
      obtain ⟨c0, hc0, he⟩ := rescueStep_mem hc'
      rcases he with he | he
      · rw [he]; exact hall c0 hc0
      · rw [he]; exact hall c0 hc0
    have hc2 : c ∈ rescueOrphans (rescueStep cs o') rest := hc
    rcases List.mem_cons.mp ho with rfl | ho'
    · -- `o` is processed first: afterwards every chunk carries it, and later
      -- steps only append images.
      refine rescue_pred (fun c => imgLinked o.imageId c.images = true) ?_ rest
        (rescueStep cs o) ?_ c hc2
      · intro c' o2 hP
        show imgLinked o.imageId (c'.images ++ [o2]) = true
        rw [imgLinked_append, hP]
        rfl
      · intro c' hc'
        unfold rescueStep at hc'
        split at hc'
        · obtain ⟨c0, hc0, he⟩ := List.mem_map.mp hc'
          subst he
          split
          · rw [imgLinked_append]
            simp
          · rename_i hcond
            by_cases hl : imgLinked o.imageId c0.images = true
            · exact hl
            · exfalso
              apply hcond
              rw [Bool.and_eq_true]
              refine ⟨by simp [hall c0 hc0], ?_⟩
              rw [Bool.not_eq_true] at hl
              simp [hl]
        · rename_i hnone
          exfalso
          rcases cs with _ | ⟨c0, cs'⟩
          · exact absurd hc' (List.not_mem_nil c')
          · apply hnone
            refine List.any_eq_true.mpr ⟨c0, List.mem_cons_self c0 cs', ?_⟩
            simp [hall c0 (List.mem_cons_self c0 cs')]
    · exact ih (rescueStep cs o') ho' hpages c hc2

/-- An id linked nowhere, whose page no chunk carries, is never added by
rescue (provided no *other* orphan shares its id). -/
theorem rescue_no_new {iid : Txt} :
    ∀ (os : List ImgRec) (cs : List Chunk),
      (∀ c ∈ cs, imgLinked iid c.images = false) →
      (∀ o ∈ os, o.imageId = iid → ∀ c ∈ cs, c.pageNumber ≠ o.pageNumber) →
      ∀ c ∈ rescueOrphans cs os, imgLinked iid c.images = false := by
  intro os
  induction os with
  | nil => intro cs h _ c hc; exact h c hc
  | cons o rest ih =>
    intro cs h hpg c hc
    by_cases hid : o.imageId = iid
    · -- the step for an orphan with this very id is a no-op: no chunk
      -- carries its page
      have hstep : rescueStep cs o = cs := by
        unfold rescueStep
        rw [if_neg]
        intro hany
        obtain ⟨c0, hc0, hb⟩ := List.any_eq_true.mp hany
        exact hpg o (List.mem_cons_self o rest) hid c0 hc0 (by simpa using hb)
      have hc2 : c ∈ rescueOrphans (rescueStep cs o) rest := hc
      rw [hstep] at hc2
      refine ih cs h ?_ c hc2
      intro o2 ho2 he2 c0 hc0
      exact hpg o2 (List.mem_cons_of_mem o ho2) he2 c0 hc0
    · -- a different id: appending `o` cannot create `iid`
      have hc2 : c ∈ rescueOrphans (rescueStep cs o) rest := hc
      refine ih (rescueStep cs o) ?_ ?_ c hc2
      · intro c' hc'
        obtain ⟨c0, hc0, he⟩ := rescueStep_mem hc'
        rcases he with he | he
        · rw [he]; exact h c0 hc0
        · rw [he]
          show imgLinked iid (c0.images ++ [o]) = false
          rw [imgLinked_append, h c0 hc0]
          simp [hid]
      · intro o2 ho2 he2 c' hc'
        obtain ⟨c0, hc0, hee⟩ := rescueStep_mem hc'
        have hpe : c'.pageNumber = c0.pageNumber := by
          rcases hee with hee | hee <;> rw [hee]
        rw [hpe]
        exact hpg o2 (List.mem_cons_of_mem o ho2) he2 c0 hc0

theorem splitNN_ne_nil : ∀ s : Txt, splitNN s ≠ [] := by
  intro s
  induction s using splitNN.induct with
  | case1 => rw [splitNN.eq_1]; simp
  | case2 rest ih => rw [splitNN.eq_2]; simp
  | case3 c rest h1 hnil ih =>
    rw [splitNN.eq_3 c rest h1, hnil]
    simp
  | case4 c rest h1 p ps hps ih =>
    rw [splitNN.eq_3 c rest h1, hps]
    simp

theorem joinNN_splitNN : ∀ s : Txt, joinNN (splitNN s) = s := by
  intro s
  induction s using splitNN.induct with
  | case1 => rfl
  | case2 rest ih =>
    rw [splitNN.eq_2]
    cases hs : splitNN rest with
    | nil => exact absurd hs (splitNN_ne_nil rest)
    | cons p ps =>
      rw [hs] at ih
      show [] ++ '\n' :: '\n' :: joinNN (p :: ps) = '\n' :: '\n' :: rest
      rw [ih]
      rfl
  | case3 c rest h1 hnil ih => exact absurd hnil (splitNN_ne_nil rest)
  | case4 c rest h1 p ps hps ih =>
    rw [splitNN.eq_3 c rest h1, hps]
    rw [hps] at ih
    cases ps with
    | nil =>
      show c :: p = c :: rest
      rw [show joinNN [p] = p from rfl] at ih
      rw [ih]
    | cons p2 ps2 =>
      show (c :: p) ++ '\n' :: '\n' :: joinNN (p2 :: ps2) = c :: rest
      have hh : p ++ '\n' :: '\n' :: joinNN (p2 :: ps2) = rest := ih
      rw [List.cons_append, hh]

theorem splitNN_has_ink {s : Txt} (h : stripL s ≠ []) :
    ∃ p ∈ splitNN s, stripL p ≠ [] := by
  by_contra hall
  push_neg at hall
  apply h
  rw [stripL_eq_nil_iff]
  have hall' : ∀ p ∈ splitNN s, ∀ c ∈ p, isSpc c = true := by
    intro p hp c hc
    have := hall p hp
    rw [stripL_eq_nil_iff] at this
    exact this c hc
  have hjoin : ∀ c ∈ joinNN (splitNN s), isSpc c = true := by
    generalize splitNN s = ps at hall'
    induction ps with
    | nil => intro c hc; exact absurd hc (List.not_mem_nil c)
    | cons p ps ih =>
      intro c hc
      cases ps with
      | nil => exact hall' p (List.mem_singleton.mpr rfl) c hc
      | cons p2 ps2 =>
        rcases List.mem_append.mp hc with hc1 | hc2
        · exact hall' p (List.mem_cons_self _ _) c hc1
        · rcases List.mem_cons.mp hc2 with rfl | hc3
          · rfl
          · rcases List.mem_cons.mp hc3 with rfl | hc4
            · rfl
            · exact ih (fun q hq => hall' q (List.mem_cons_of_mem p hq)) c hc4
  rw [joinNN_splitNN] at hjoin
  exact hjoin

theorem splitGo_ne_nil {mt : ℕ} {docId cl : Txt} {ch : ℕ × Txt} {secName : Txt}
    {buf : BufferRec} {pis : List ImgRec} {pts : List TblRec} :
    ∀ (paras : List Txt) (cur : Txt) (n : ℕ),
      ((∃ p ∈ paras, stripL p ≠ []) ∨ stripL cur ≠ []) →
      splitGo mt docId cl ch secName buf pis pts paras cur n ≠ [] := by
  intro paras
  induction paras with
  | nil =>
    intro cur n h
    rcases h with ⟨p, hp, _⟩ | h
    · exact absurd hp (List.not_mem_nil p)
    · unfold splitGo
      rw [if_pos h]
      simp
  | cons p rest ih =>
    intro cur n h
    unfold splitGo
    split
    · rename_i hpz
      refine ih cur n ?_
      rcases h with ⟨q, hq, hqs⟩ | h
      · rcases List.mem_cons.mp hq with rfl | hq'
        · exact absurd hpz hqs
        · exact Or.inl ⟨q, hq', hqs⟩
      · exact Or.inr h
    · split
      · simp
      · rename_i hpz _
        refine ih _ n (Or.inr ?_)
        split
        · exact hpz
        · exact stripL_ne_nil_append hpz

theorem anyLinked_eq_false {cs : List Chunk} {id : Txt}
    (h : anyLinked cs id = false) :
    ∀ c ∈ cs, imgLinked id c.images = false := by
  unfold anyLinked at h
  rw [List.any_eq_false] at h
  intro c hc
  have := h c hc
  rwa [Bool.not_eq_true] at this

/-- C1 (amended): *for an oversized buffer, i.e. in the splitting branch*,
after the explicit-reference phase has resolved for the whole group, every
collected image unmatched by an explicit citation is attached to every chunk
of the group whose recorded page equals the image's page; if no chunk carries
that page the image is dropped (appearing in no chunk); and no image id is
ever attached to the same chunk twice.  For a buffer *within* the size bound
the rescue never runs (early return at line 385) — see the counterexample. -/
theorem c1_amended (mt : ℕ) (docId cl : Txt) (ch : ℕ × Txt) (secName : Txt)
    (buf : BufferRec) (pis : List ImgRec) (pts : List TblRec)
    (hink : stripL buf.text ≠ []) (hbig : 2 * buf.text.length > 7 * mt)
    (hnodup : (pis.map ImgRec.imageId).Nodup) :
    (∀ c ∈ createCollectionChunk mt docId cl ch secName buf pis pts,
      (c.images.map ImgRec.imageId).Nodup) ∧
    (∀ img ∈ pis,
      anyLinked (collParts mt docId cl ch secName buf pis pts) img.imageId = false →
      ((∃ c ∈ collParts mt docId cl ch secName buf pis pts,
          c.pageNumber = img.pageNumber) →
        ∀ c ∈ createCollectionChunk mt docId cl ch secName buf pis pts,
          c.pageNumber = img.pageNumber → imgLinked img.imageId c.images = true) ∧
      ((∀ c ∈ collParts mt docId cl ch secName buf pis pts,
          c.pageNumber ≠ img.pageNumber) →
        ∀ c ∈ createCollectionChunk mt docId cl ch secName buf pis pts,
          imgLinked img.imageId c.images = false)) := by
  have hout : createCollectionChunk mt docId cl ch secName buf pis pts =
      (if !pis.isEmpty then
        rescueOrphans (collParts mt docId cl ch secName buf pis pts)
          (pis.filter
            (fun i => !(anyLinked (collParts mt docId cl ch secName buf pis pts) i.imageId)))
      else collParts mt docId cl ch secName buf pis pts) := by
    unfold createCollectionChunk
    rw [if_neg hink, if_neg (by omega : ¬ 2 * buf.text.length ≤ 7 * mt)]
  constructor
  · intro c hc
    rw [hout] at hc
    split at hc
    · exact rescue_nodup _ _ collParts_nodup c hc
    · exact collParts_nodup c hc
  · intro img himg horph
    have hpne : ¬ pis.isEmpty := by
      cases pis with
      | nil => exact absurd himg (List.not_mem_nil img)
      | cons a l => simp
    have hout2 : createCollectionChunk mt docId cl ch secName buf pis pts =
        rescueOrphans (collParts mt docId cl ch secName buf pis pts)
          (pis.filter
            (fun i => !(anyLinked (collParts mt docId cl ch secName buf pis pts) i.imageId))) := by
      rw [hout, if_pos (by simpa using hpne)]
    have horphan : img ∈ pis.filter
        (fun i => !(anyLinked (collParts mt docId cl ch secName buf pis pts) i.imageId)) :=
      List.mem_filter.mpr ⟨himg, by rw [horph]; rfl⟩
    constructor
    · intro hex c hc _
      obtain ⟨c0, hc0, hpage0⟩ := hex
      have hsp : img.pageNumber = buf.startPage := by
        rw [← hpage0, collParts_page c0 hc0]
      have hall : ∀ c' ∈ collParts mt docId cl ch secName buf pis pts,
          c'.pageNumber = img.pageNumber := by
        intro c' hc'
        rw [collParts_page c' hc', hsp]
      rw [hout2] at hc
      exact rescue_attach _ _ horphan hall c hc
    · intro hnone c hc
      rw [hout2] at hc
      refine rescue_no_new _ _ (anyLinked_eq_false horph) ?_ c hc
      intro o ho heq c0 hc0
      have hoin : o ∈ pis := List.mem_of_mem_filter ho
      have : o = img := List.inj_on_of_nodup_map hnodup hoin himg heq
      rw [this]
      exact hnone c0 hc0

theorem c1_amended_witness :
    imgLinked c1img.imageId
      (((createCollectionChunk 2 "d".toList "11".toList (0, []) []
        ⟨"Look here.\n\nSee above.".toList, "3.1".toList, 3, false, [c1img]⟩
        [c1img] []).getD 0
        ⟨[], [], 0, [], [], .txt, [], 0, [], [], none, none⟩).images) = true := by
  have h := (c1_amended 2 "d".toList "11".toList (0, []) []
    ⟨"Look here.\n\nSee above.".toList, "3.1".toList, 3, false, [c1img]⟩ [c1img] []
    (by decide) (by decide) (by decide)).2 c1img (by decide) (by decide)
  exact h.1 (by decide)
    (((createCollectionChunk 2 "d".toList "11".toList (0, []) []
      ⟨"Look here.\n\nSee above.".toList, "3.1".toList, 3, false, [c1img]⟩
      [c1img] []).getD 0
      ⟨[], [], 0, [], [], .txt, [], 0, [], [], none, none⟩)) (by decide) (by decide)

/-!  ## C1 counterexample: no orphan rescue for a within-bound buffer -/

/-- C1 counterexample: a collection buffer whose text is within the size bound
is converted to a single chunk, and `_create_collection_chunk` returns before
its orphan-rescue block (line 385) — so the accumulated image `c1img`, which no
explicit citation matched and whose page (3) equals the chunk's recorded page
(3), is *not* attached to the chunk, contradicting the claim. -/
theorem c1_counterexample :
    (createCollectionChunk 800 "d".toList "11".toList (0, []) [] c1buf [c1img] []).map
        Chunk.images = [[]] ∧
    (createCollectionChunk 800 "d".toList "11".toList (0, []) [] c1buf [c1img] []).map
        Chunk.pageNumber = [c1img.pageNumber] ∧
    figRefs c1buf.text = [] := by
  decide

/-!  ## C2: greedy paragraph splitting -/

theorem joinNN_ink {g : List Txt} (hg : g ≠ []) (h : ∀ p ∈ g, stripL p ≠ []) :
    stripL (joinNN g) ≠ [] := by
  cases g with
  | nil => exact absurd rfl hg
  | cons q gs =>
    cases gs with
    | nil => exact h q (List.mem_singleton.mpr rfl)
    | cons q2 gs2 =>
      show stripL (q ++ '\n' :: '\n' :: joinNN (q2 :: gs2)) ≠ []
      exact stripL_ne_nil_append_left (h q (List.mem_cons_self _ _))

theorem joinNN_append_singleton {g : List Txt} (hg : g ≠ []) (p : Txt) :
    joinNN (g ++ [p]) = joinNN g ++ '\n' :: '\n' :: p := by
  induction g with
  | nil => exact absurd rfl hg
  | cons q gs ih =>
    cases gs with
    | nil => rfl
    | cons q2 gs2 =>
      show q ++ '\n' :: '\n' :: joinNN ((q2 :: gs2) ++ [p])
          = (q ++ '\n' :: '\n' :: joinNN (q2 :: gs2)) ++ '\n' :: '\n' :: p
      rw [ih (by simp)]
      simp

/-- Invariant form of the splitting loop: `cur` holds the pending group
`curG`; the loop emits consecutive groups of the remaining non-blank
paragraphs, numbering parts from `n`. -/
theorem splitGo_structure {mt : ℕ} {docId cl : Txt} {ch : ℕ × Txt}
    {secName : Txt} {buf : BufferRec} {pis : List ImgRec} {pts : List TblRec} :
    ∀ (paras : List Txt) (cur : Txt) (curG : List Txt) (n : ℕ),
      cur = joinNN curG → curG ≠ [] → (∀ p ∈ curG, stripL p ≠ []) →
      (curG.length = 1 ∨ 2 * cur.length ≤ 7 * mt + 4) →
      ∃ groups : List (List Txt),
        (∀ g ∈ groups, g ≠ [] ∧ (∀ p ∈ g, stripL p ≠ []) ∧
          (g.length = 1 ∨ 2 * (joinNN g).length ≤ 7 * mt + 4)) ∧
        groups.join = curG ++ paras.filter (fun p => !(stripL p).isEmpty) ∧
        (splitGo mt docId cl ch secName buf pis pts paras cur n).map Chunk.textContent
          = mapFrom (fun m g => partText buf m (joinNN g)) n groups := by
  intro paras
  induction paras with
  | nil =>
    intro cur curG n hcur hne hink hbnd
    refine ⟨[curG], ?_, by simp, ?_⟩
    · intro g hg
      rcases List.mem_singleton.mp hg with rfl
      refine ⟨hne, hink, ?_⟩
      rwa [hcur] at hbnd
    · unfold splitGo
      rw [if_pos (by rw [hcur]; exact joinNN_ink hne hink)]
      rw [List.map_singleton, mkPart_text, hcur]
      rfl
  | cons p rest ih =>
    intro cur curG n hcur hne hink hbnd
    by_cases hps : stripL p = []
    · obtain ⟨groups, h1, h2, h3⟩ := ih cur curG n hcur hne hink hbnd
      refine ⟨groups, h1, ?_, ?_⟩
      · rw [h2, List.filter_cons]
        simp [hps]
      · rw [splitGo.eq_2, if_pos hps]
        exact h3
    · by_cases hcl : 2 * (cur.length + p.length) > 7 * mt ∧ cur ≠ []
      · obtain ⟨groups, h1, h2, h3⟩ := ih p [p] (n + 1) rfl (by simp)
          (by intro q hq; rcases List.mem_singleton.mp hq with rfl; exact hps)
          (Or.inl rfl)
        refine ⟨curG :: groups, ?_, ?_, ?_⟩
        · intro g hg
          rcases List.mem_cons.mp hg with rfl | hg'
          · refine ⟨hne, hink, ?_⟩
            rwa [hcur] at hbnd
          · exact h1 g hg'
        · show curG ++ groups.join = curG ++ (p :: rest).filter _
          rw [h2, List.filter_cons]
          simp [hps]
        · rw [splitGo.eq_2, if_neg hps, if_pos hcl, List.map_cons, mkPart_text, h3, hcur]
          rfl
      · have hcne : cur ≠ [] := by
          rw [hcur]
          intro hz
          exact joinNN_ink hne hink (by rw [hz]; rfl)
        have hle : 2 * (cur.length + p.length) ≤ 7 * mt := by
          by_contra hgt
          exact hcl ⟨by omega, hcne⟩
        obtain ⟨groups, h1, h2, h3⟩ := ih (cur ++ '\n' :: '\n' :: p) (curG ++ [p]) n
          (by rw [hcur, joinNN_append_singleton hne]) (by simp)
          (by
            intro q hq
            rcases List.mem_append.mp hq with hq' | hq'
            · exact hink q hq'
            · rcases List.mem_singleton.mp hq' with rfl; exact hps)
          (by
            refine Or.inr ?_
            have : (cur ++ '\n' :: '\n' :: p).length = cur.length + p.length + 2 := by
              simp [List.length_append]
              omega
            omega)
        have hpred : (!(stripL p).isEmpty) = true := by
          cases h : stripL p with
          | nil => exact absurd h hps
          | cons a l => rfl
        refine ⟨groups, h1, ?_, ?_⟩
        · rw [h2, List.filter_cons, if_pos hpred]
          simp [List.append_assoc]
        · rw [splitGo.eq_2, if_neg hps, if_neg hcl, if_neg hcne]
          exact h3

/-- Start of the loop (`current_chunk_text = ""`, `part_num = 1`). -/
theorem splitGo_structure0 {mt : ℕ} {docId cl : Txt} {ch : ℕ × Txt}
    {secName : Txt} {buf : BufferRec} {pis : List ImgRec} {pts : List TblRec} :
    ∀ (paras : List Txt) (n : ℕ),
      ∃ groups : List (List Txt),
        (∀ g ∈ groups, g ≠ [] ∧ (∀ p ∈ g, stripL p ≠ []) ∧
          (g.length = 1 ∨ 2 * (joinNN g).length ≤ 7 * mt + 4)) ∧
        groups.join = paras.filter (fun p => !(stripL p).isEmpty) ∧
        (splitGo mt docId cl ch secName buf pis pts paras [] n).map Chunk.textContent
          = mapFrom (fun m g => partText buf m (joinNN g)) n groups := by
  intro paras
  induction paras with
  | nil =>
    intro n
    refine ⟨[], by simp, by simp, ?_⟩
    rw [splitGo.eq_1, if_neg (by decide : ¬ stripL ([] : Txt) ≠ [])]
    rfl
  | cons p rest ih =>
    intro n
    by_cases hps : stripL p = []
    · obtain ⟨groups, h1, h2, h3⟩ := ih n
      refine ⟨groups, h1, ?_, ?_⟩
      · rw [h2, List.filter_cons]
        simp [hps]
      · rw [splitGo.eq_2, if_pos hps]
        exact h3
    · obtain ⟨groups, h1, h2, h3⟩ := splitGo_structure rest p [p] n rfl (by simp)
        (by intro q hq; rcases List.mem_singleton.mp hq with rfl; exact hps)
        (Or.inl rfl)
      have hpred : (!(stripL p).isEmpty) = true := by
        cases h : stripL p with
        | nil => exact absurd h hps
        | cons a l => rfl
      refine ⟨groups, h1, ?_, ?_⟩
      · rw [h2, List.filter_cons, if_pos hpred]
        rfl
      · rw [splitGo.eq_2, if_neg hps,
          if_neg (by simp : ¬ (2 * (List.length ([] : Txt) + p.length) > 7 * mt ∧ ([] : Txt) ≠ [])),
          if_pos rfl]
        exact h3

/-- C2 (amended): for an oversized buffer the assembler splits greedily at
paragraph boundaries: the emitted parts are consecutive runs of the buffer's
non-blank paragraphs in original order (so concatenating the parts' cores
reproduces them), part `m` carries the synthetic `[<Kind> <label> (Part m)]`
header for `m > 1` unless the `<kind> <label>` marker already appears in its
first 50 characters (this is `partText`), and every part is either a *single*
paragraph (unbounded — a lone oversized paragraph is emitted whole) or has
core length within `max_chars + 2`: the two joining newline characters are not
counted by the overflow test, so the configured bound itself can be exceeded
(see the counterexample). -/
theorem c2_amended (mt : ℕ) (docId cl : Txt) (ch : ℕ × Txt) (secName : Txt)
    (buf : BufferRec) (pis : List ImgRec) (pts : List TblRec)
    (hink : stripL buf.text ≠ []) (hbig : 2 * buf.text.length > 7 * mt) :
    ∃ groups : List (List Txt),
      (∀ g ∈ groups, g ≠ [] ∧ (∀ p ∈ g, stripL p ≠ []) ∧
        (g.length = 1 ∨ 2 * (joinNN g).length ≤ 7 * mt + 4)) ∧
      groups.join = (splitNN buf.text).filter (fun p => !(stripL p).isEmpty) ∧
      (createCollectionChunk mt docId cl ch secName buf pis pts).map Chunk.textContent
        = mapFrom (fun m g => partText buf m (joinNN g)) 1 groups := by
  obtain ⟨groups, h1, h2, h3⟩ :=
    @splitGo_structure0 mt docId cl ch secName buf pis pts (splitNN buf.text) 1
  refine ⟨groups, h1, h2, ?_⟩
  have hout : createCollectionChunk mt docId cl ch secName buf pis pts =
      (if !pis.isEmpty then
        rescueOrphans (collParts mt docId cl ch secName buf pis pts)
          (pis.filter
            (fun i => !(anyLinked (collParts mt docId cl ch secName buf pis pts) i.imageId)))
      else collParts mt docId cl ch secName buf pis pts) := by
    unfold createCollectionChunk
    rw [if_neg hink, if_neg (by omega : ¬ 2 * buf.text.length ≤ 7 * mt)]
  rw [hout]
  split
  · rw [rescueOrphans_map_eq Chunk.textContent (fun _ _ => rfl)]
    exact h3
  · exact h3

theorem c2_amended_witness :
    ∃ groups : List (List Txt),
      (∀ g ∈ groups, g ≠ [] ∧ (∀ p ∈ g, stripL p ≠ []) ∧
        (g.length = 1 ∨ 2 * (joinNN g).length ≤ 7 * 2 + 4)) ∧
      groups.join = (splitNN c2buf.text).filter (fun p => !(stripL p).isEmpty) ∧
      (createCollectionChunk 2 "d".toList "11".toList (0, []) [] c2buf [] []).map
          Chunk.textContent
        = mapFrom (fun m g => partText c2buf m (joinNN g)) 1 groups :=
  c2_amended 2 "d".toList "11".toList (0, []) [] c2buf [] [] (by decide) (by decide)

/-!  ## C2 counterexample: a part exceeding the configured bound -/

/-- C2 counterexample: with `max_tokens = 2` (`max_chars = 2 * 3.5 = 7`) the
buffer `"aaa\n\naaa"` (length 8 > 7) is split, yet the loop's overflow test
ignores the 2-character `'\n\n'` joiner and the single emitted part has length
8 > 7 — refuting "every emitted part's text stays within the configured
bound". -/
theorem c2_counterexample :
    2 * c2buf.text.length > 7 * 2 ∧
    (createCollectionChunk 2 "d".toList "11".toList (0, []) [] c2buf [] []).map
        (fun c => c.textContent.length) = [8] ∧
    ¬ (2 * 8 ≤ 7 * 2) := by
  decide

/-!  ## C9: chapter context -/

theorem processPage_chapter_eq {mt : ℕ} {docId cl : Txt} {st : DocState}
    {page : PageRec} :
    ((processPage mt docId cl st page).1).chapter =
      (match searchChapter page.text with
       | some n => (n, "Chapter ".toList ++ natChars n)
       | none => st.chapter) := rfl

/-- Non-retroactivity: every chunk created while processing a page records the
chapter context from before that page; the CHAPTER update (lines 231-234) runs
only after the page's chunks exist. -/
theorem processPage_chap {mt : ℕ} {docId cl : Txt} {st : DocState}
    {page : PageRec} :
    ∀ c ∈ (processPage mt docId cl st page).2, c.chapterNumber = st.chapter.1 := by
  intro c hc
  rcases processPage_mem hc with ⟨seg, h⟩ | ⟨b, h⟩ | ⟨tail, h⟩
  · exact simpleChunkList_chap c h
  · exact createCollectionChunk_chap c h
  · exact chunkPageGo_chap _ [] c h

theorem chain_const {l : List ℕ} {a : ℕ} (h : ∀ x ∈ l, x = a) :
    List.Chain' (· ≤ ·) l := by
  induction l with
  | nil => exact List.chain'_nil
  | cons x xs ih =>
    rw [List.chain'_cons']
    constructor
    · intro b hb
      rw [h x (List.mem_cons_self x xs),
        h b (List.mem_cons_of_mem x (List.mem_of_mem_head? hb))]
    · exact ih (fun y hy => h y (List.mem_cons_of_mem x hy))

/-- The page fold keeps chapter numbers between the starting and final state
chapter when the CHAPTER headers found are non-decreasing. -/
theorem foldPages_chain (mt : ℕ) (docId cl : Txt) :
    ∀ (ps : List PageRec) (st : DocState),
      chapOkB st.chapter.1 ps = true →
      st.chapter.1 ≤ ((foldPages mt docId cl st ps).1).chapter.1 ∧
      (∀ c ∈ (foldPages mt docId cl st ps).2,
        st.chapter.1 ≤ c.chapterNumber ∧
        c.chapterNumber ≤ ((foldPages mt docId cl st ps).1).chapter.1) ∧
      List.Chain' (· ≤ ·) (((foldPages mt docId cl st ps).2).map Chunk.chapterNumber) := by
  intro ps
  induction ps with
  | nil =>
    intro st _
    exact ⟨le_refl _, fun c hc => absurd hc (List.not_mem_nil c), List.chain'_nil⟩
  | cons p rest ih =>
    intro st hok
    have hst1 : st.chapter.1 ≤ ((processPage mt docId cl st p).1).chapter.1 ∧
        chapOkB ((processPage mt docId cl st p).1).chapter.1 rest = true := by
      unfold chapOkB at hok
      rw [processPage_chapter_eq]
      cases hsc : searchChapter p.text with
      | none => rw [hsc] at hok; exact ⟨le_refl _, hok⟩
      | some n =>
        rw [hsc] at hok
        simp only [Bool.and_eq_true, decide_eq_true_eq] at hok
        exact ⟨hok.1, hok.2⟩
    obtain ⟨hle1, hok1⟩ := hst1
    obtain ⟨hle2, hbnd2, hchain2⟩ := ih ((processPage mt docId cl st p).1) hok1
    have heq : foldPages mt docId cl st (p :: rest) =
        (((foldPages mt docId cl ((processPage mt docId cl st p).1) rest).1),
          (processPage mt docId cl st p).2 ++
            (foldPages mt docId cl ((processPage mt docId cl st p).1) rest).2) := rfl
    rw [heq]
    refine ⟨le_trans hle1 hle2, ?_, ?_⟩
    · intro c hc
      rcases List.mem_append.mp hc with hc1 | hc2
      · rw [processPage_chap c hc1]
        exact ⟨le_refl _, le_trans hle1 hle2⟩
      · obtain ⟨h1, h2⟩ := hbnd2 c hc2
        exact ⟨le_trans hle1 h1, h2⟩
    · rw [List.map_append]
      rw [List.chain'_append]
      refine ⟨?_, hchain2, ?_⟩
      · apply chain_const
        intro x hx
        obtain ⟨c, hc, rfl⟩ := List.mem_map.mp hx
        exact processPage_chap c hc
      · intro x hx y hy
        obtain ⟨c, hc, rfl⟩ := List.mem_map.mp (List.mem_of_mem_getLast? hx)
        obtain ⟨c', hc', rfl⟩ := List.mem_map.mp (List.mem_of_mem_head? hy)
        rw [processPage_chap c hc]
        exact le_trans hle1 (hbnd2 c' hc').1

/-- C9 (amended): a chapter header updates the structural context only for
chunks created after its page (never retroactively; within its own page the
old context still applies), and — *provided the CHAPTER headers found across
the document are non-decreasing* — the recorded chapter numbers across
`chunk_document`'s output are monotonically non-decreasing.  The proviso is
necessary: see the counterexample. -/
theorem c9_amended (mt : ℕ) (docId cl : Txt) :
    (∀ (st : DocState) (page : PageRec),
      ∀ c ∈ (processPage mt docId cl st page).2, c.chapterNumber = st.chapter.1) ∧
    (∀ pages : List PageRec, chapOkB 0 pages = true →
      List.Chain' (· ≤ ·) ((chunkDocument mt docId cl pages).map Chunk.chapterNumber)) := by
  constructor
  · intro st page c hc
    exact processPage_chap c hc
  · intro pages hok
    have h0 : chapOkB initState.chapter.1 pages = true := hok
    obtain ⟨hle, hbnd, hchain⟩ := foldPages_chain mt docId cl pages initState h0
    show List.Chain' (· ≤ ·) ((((foldPages mt docId cl initState pages).2) ++ _).map _)
    rw [List.map_append, List.chain'_append]
    refine ⟨hchain, ?_, ?_⟩
    · apply chain_const
      intro x hx
      obtain ⟨c, hc, rfl⟩ := List.mem_map.mp hx
      split at hc
      · exact createCollectionChunk_chap c hc
      · exact absurd hc (List.not_mem_nil c)
    · intro x hx y hy
      obtain ⟨c, hc, rfl⟩ := List.mem_map.mp (List.mem_of_mem_getLast? hx)
      obtain ⟨c', hc', rfl⟩ := List.mem_map.mp (List.mem_of_mem_head? hy)
      have h1 : c.chapterNumber ≤ ((foldPages mt docId cl initState pages).1).chapter.1 :=
        (hbnd c hc).2
      have h2 : c'.chapterNumber = ((foldPages mt docId cl initState pages).1).chapter.1 := by
        split at hc'
        · exact createCollectionChunk_chap c' hc'
        · exact absurd hc' (List.not_mem_nil c')
      rw [h2]
      exact h1

theorem c9_amended_witness :
    List.Chain' (· ≤ ·)
      ((chunkDocument 800 "doc1".toList "11".toList [c3page1, c3page2]).map
        Chunk.chapterNumber) :=
  (c9_amended 800 "doc1".toList "11".toList).2 [c3page1, c3page2] (by decide)

/-!  ## C9 counterexample: non-monotone chapter numbers -/

/-!  ## C4 and C5: fusion scoring and result ordering -/

theorem scoreOf_nil (j : Txt) : scoreOf [] j = 0 := rfl

theorem scoreOf_cons (a : Txt) (b : ℚ) (d : List (Txt × ℚ)) (j : Txt) :
    scoreOf ((a, b) :: d) j = if a = j then b else scoreOf d j := by
  by_cases h : a = j
  · unfold scoreOf
    rw [List.find?_cons_of_pos _ (by simp [h])]
    rw [if_pos h]
  · unfold scoreOf
    rw [List.find?_cons_of_neg _ (by simp [h])]
    rw [if_neg h]

theorem addScore_keys (d : List (Txt × ℚ)) (id : Txt) (v : ℚ) :
    (addScore d id v).map Prod.fst =
      (if d.any (fun e => e.1 = id) then d.map Prod.fst
       else d.map Prod.fst ++ [id]) := by
  unfold addScore
  split
  · rename_i hany
    rw [List.map_map]
    apply List.map_congr_left
    intro e _
    simp only [Function.comp_apply]
    split <;> rfl
  · rename_i hany
    rw [List.map_append]
    rfl

theorem addScore_keys_nodup {d : List (Txt × ℚ)} (hnd : (d.map Prod.fst).Nodup)
    (id : Txt) (v : ℚ) : ((addScore d id v).map Prod.fst).Nodup := by
  rw [addScore_keys]
  split
  · exact hnd
  · rename_i hany
    rw [List.nodup_append]
    refine ⟨hnd, List.nodup_singleton _, ?_⟩
    intro x hx hx2
    rcases List.mem_singleton.mp hx2 with rfl
    obtain ⟨e, he, hee⟩ := List.mem_map.mp hx
    exact hany (List.any_eq_true.mpr ⟨e, he, by simp [hee]⟩)

theorem scoreOf_map_add (id : Txt) (v : ℚ) (j : Txt) :
    ∀ d : List (Txt × ℚ), (d.map Prod.fst).Nodup →
      scoreOf (d.map (fun e => if e.1 = id then (e.1, e.2 + v) else e)) j
        = scoreOf d j + (if j = id ∧ d.any (fun e => e.1 = id) = true then v else 0) := by
  intro d
  induction d with
  | nil => simp [scoreOf]
  | cons e d ih =>
    intro hnd
    obtain ⟨a, b⟩ := e
    have hnd' : (d.map Prod.fst).Nodup := (List.nodup_cons.mp hnd).2
    have hnotin : a ∉ d.map Prod.fst := (List.nodup_cons.mp hnd).1
    rw [List.map_cons]
    by_cases hai : a = id
    · rw [show (if (a, b).1 = id then ((a, b).1, (a, b).2 + v) else (a, b))
          = (a, b + v) from by simp [hai]]
      by_cases hj : a = j
      · rw [scoreOf_cons, if_pos hj, scoreOf_cons, if_pos hj]
        rw [if_pos ⟨(hj.symm.trans hai), by simp [List.any_cons, hai]⟩]
      · rw [scoreOf_cons, if_neg hj, scoreOf_cons, if_neg hj, ih hnd']
        congr 1
        have hji : ¬ j = id := by
          intro h
          -- then a = id = j, contradicting hj
          exact hj (hai.trans h.symm)
        rw [if_neg (by tauto), if_neg (by tauto)]
    · rw [show (if (a, b).1 = id then ((a, b).1, (a, b).2 + v) else (a, b))
          = (a, b) from by simp [hai]]
      by_cases hj : a = j
      · rw [scoreOf_cons, if_pos hj, scoreOf_cons, if_pos hj]
        have hji : ¬ j = id := by
          intro h
          exact hai (hj.trans h)
        rw [if_neg (by tauto)]
        ring
      · rw [scoreOf_cons, if_neg hj, scoreOf_cons, if_neg hj, ih hnd']
        congr 1
        have : ((a, b) :: d).any (fun e => e.1 = id) = d.any (fun e => e.1 = id) := by
          rw [List.any_cons]
          simp [hai]
        rw [this]

theorem scoreOf_append_new (id : Txt) (v : ℚ) (j : Txt) :
    ∀ d : List (Txt × ℚ), d.any (fun e => e.1 = id) = false →
      scoreOf (d ++ [(id, v)]) j = scoreOf d j + if j = id then v else 0 := by
  intro d
  induction d with
  | nil =>
    intro _
    show scoreOf [(id, v)] j = scoreOf [] j + _
    rw [scoreOf_cons, scoreOf_nil]
    by_cases hj : id = j
    · rw [if_pos hj, if_pos hj.symm]
      ring
    · rw [if_neg hj, if_neg (fun h => hj h.symm)]
      ring
  | cons e d ih =>
    intro hany
    obtain ⟨a, b⟩ := e
    rw [List.any_cons] at hany
    have ⟨ha, hd⟩ : ¬ a = id ∧ d.any (fun e => e.1 = id) = false := by
      constructor
      · intro h
        rw [h] at hany
        simp at hany
      · cases hv : d.any (fun e => e.1 = id)
        · rfl
        · rw [hv] at hany
          simp at hany
    rw [List.cons_append, scoreOf_cons, scoreOf_cons]
    by_cases hj : a = j
    · rw [if_pos hj, if_pos hj]
      rw [if_neg (fun h => ha (hj.trans h))]
      ring
    · rw [if_neg hj, if_neg hj, ih hd]

theorem scoreOf_addScore {d : List (Txt × ℚ)} (hnd : (d.map Prod.fst).Nodup)
    (id : Txt) (v : ℚ) (j : Txt) :
    scoreOf (addScore d id v) j = scoreOf d j + if j = id then v else 0 := by
  unfold addScore
  split
  · rename_i hany
    rw [scoreOf_map_add id v j d hnd]
    congr 1
    by_cases hj : j = id
    · rw [if_pos ⟨hj, hany⟩, if_pos hj]
    · rw [if_neg (by tauto), if_neg hj]
  · rename_i hany
    rw [Bool.not_eq_true] at hany
    exact scoreOf_append_new id v j d hany

theorem applyRrf_keys_nodup (keep : Txt → Bool) (w : ℚ) :
    ∀ (l : List (Txt × ℚ)) (d : List (Txt × ℚ)) (r : ℕ),
      (d.map Prod.fst).Nodup → ((applyRrf keep w d r l).map Prod.fst).Nodup := by
  intro l
  induction l with
  | nil => intro d r h; exact h
  | cons e rest ih =>
    intro d r h
    obtain ⟨id, s⟩ := e
    show ((applyRrf keep w (if keep id then addScore d id _ else d) (r + 1) rest).map
      Prod.fst).Nodup
    refine ih _ (r + 1) ?_
    split
    · exact addScore_keys_nodup h _ _
    · exact h

theorem applyRrf_score (keep : Txt → Bool) (w : ℚ) (j : Txt) :
    ∀ (l : List (Txt × ℚ)) (d : List (Txt × ℚ)) (r : ℕ),
      (d.map Prod.fst).Nodup →
      scoreOf (applyRrf keep w d r l) j = scoreOf d j + w * contribSum keep j r l := by
  intro l
  induction l with
  | nil =>
    intro d r h
    show scoreOf d j = scoreOf d j + w * 0
    ring
  | cons e rest ih =>
    intro d r h
    obtain ⟨id, s⟩ := e
    show scoreOf (applyRrf keep w
        (if keep id then addScore d id (w * (1 / (60 + (r : ℚ) + 1))) else d)
        (r + 1) rest) j
      = scoreOf d j + w * ((if id = j ∧ keep id then 1 / (60 + (r : ℚ) + 1) else 0)
          + contribSum keep j (r + 1) rest)
    rw [ih _ (r + 1) (by split; exacts [addScore_keys_nodup h _ _, h])]
    by_cases hk : keep id = true
    · rw [if_pos hk, scoreOf_addScore h]
      by_cases hj : j = id
      · rw [if_pos hj, if_pos ⟨hj.symm, hk⟩]
        ring
      · rw [if_neg hj, if_neg (by tauto)]
        ring
    · rw [if_neg hk, if_neg (by tauto)]
      ring

theorem contribSum_zero (keep : Txt → Bool) (J : Txt) :
    ∀ (l : List (Txt × ℚ)) (r : ℕ), (∀ e ∈ l, e.1 ≠ J) →
      contribSum keep J r l = 0 := by
  intro l
  induction l with
  | nil => intro r _; rfl
  | cons e rest ih =>
    intro r h
    obtain ⟨a, b⟩ := e
    show (if a = J ∧ keep a then 1 / (60 + (r : ℚ) + 1) else 0)
        + contribSum keep J (r + 1) rest = 0
    rw [if_neg (by
      intro hc
      exact h (a, b) (List.mem_cons_self _ _) hc.1)]
    rw [ih (r + 1) (fun e he => h e (List.mem_cons_of_mem _ he))]
    ring

theorem contribSum_idx (keep : Txt → Bool) (J : Txt) :
    ∀ (l : List (Txt × ℚ)) (r : ℕ), (l.map Prod.fst).Nodup →
      contribSum keep J r l =
        (match l.findIdx? (fun e => e.1 = J) r with
         | some i => if keep J then 1 / (60 + (i : ℚ) + 1) else 0
         | none => 0) := by
  intro l
  induction l with
  | nil => intro r _; rfl
  | cons e rest ih =>
    intro r hnd
    obtain ⟨a, b⟩ := e
    have hnd' : (rest.map Prod.fst).Nodup := (List.nodup_cons.mp hnd).2
    have hnotin : a ∉ rest.map Prod.fst := (List.nodup_cons.mp hnd).1
    rw [List.findIdx?_cons]
    by_cases ha : a = J
    · rw [if_pos (by simp [ha])]
      show (if a = J ∧ keep a then 1 / (60 + (r : ℚ) + 1) else 0)
          + contribSum keep J (r + 1) rest = _
      rw [contribSum_zero keep J rest (r + 1) (by
        intro e he hej
        apply hnotin
        rw [ha]
        exact List.mem_map.mpr ⟨e, he, hej⟩)]
      by_cases hk : keep J = true
      · rw [if_pos ⟨ha, by rw [ha]; exact hk⟩]
        show 1 / (60 + (r : ℚ) + 1) + 0
            = if keep J = true then 1 / (60 + (r : ℚ) + 1) else 0
        rw [if_pos hk]
        ring
      · rw [if_neg (by
          intro hc
          exact hk (by rw [← ha]; exact hc.2))]
        show 0 + 0 = if keep J = true then 1 / (60 + (r : ℚ) + 1) else 0
        rw [if_neg hk]
        ring
    · rw [if_neg (by simp [ha])]
      show (if a = J ∧ keep a then 1 / (60 + (r : ℚ) + 1) else 0)
          + contribSum keep J (r + 1) rest = _
      rw [if_neg (by intro hc; exact ha hc.1)]
      rw [ih (r + 1) hnd']
      ring

theorem contribSum_spec (keep : Txt → Bool) (J : Txt) {l : List (Txt × ℚ)}
    (hnd : (l.map Prod.fst).Nodup) :
    contribSum keep J 0 l = specContrib keep l J := by
  rw [contribSum_idx keep J l 0 hnd]
  rfl

theorem insScore_split (x : Txt × ℚ) :
    ∀ l : List (Txt × ℚ),
      ∃ l1 l2, l = l1 ++ l2 ∧ insScore x l = l1 ++ x :: l2 ∧
        (∀ y ∈ l1, y.2 > x.2) ∧ (∀ y ∈ l2.head?, ¬ y.2 > x.2) := by
  intro l
  induction l with
  | nil => exact ⟨[], [], rfl, rfl, by simp, by simp⟩
  | cons y ys ih =>
    by_cases hy : y.2 > x.2
    · obtain ⟨l1, l2, he, hi, h1, h2⟩ := ih
      refine ⟨y :: l1, l2, by rw [List.cons_append, ← he], ?_, ?_, h2⟩
      · show insScore x (y :: ys) = _
        unfold insScore
        rw [if_pos hy, hi]
        rfl
      · intro z hz
        rcases List.mem_cons.mp hz with rfl | hz'
        · exact hy
        · exact h1 z hz'
    · refine ⟨[], y :: ys, rfl, ?_, by simp, ?_⟩
      · show insScore x (y :: ys) = _
        unfold insScore
        rw [if_neg hy]
        rfl
      · intro z hz
        rcases Option.mem_def.mp hz with hz'
        injection hz' with hz''
        rw [← hz'']
        exact hy

theorem sortScores_sorted_filter :
    ∀ l : List (Txt × ℚ),
      List.Pairwise (fun a b : Txt × ℚ => a.2 ≥ b.2) (sortScores l) ∧
      ∀ s : ℚ, (sortScores l).filter (fun e => e.2 = s)
        = l.filter (fun e => e.2 = s) := by
  intro l
  induction l with
  | nil => exact ⟨List.Pairwise.nil, fun _ => rfl⟩
  | cons x xs ih =>
    obtain ⟨hsorted, hfil⟩ := ih
    obtain ⟨l1, l2, he, hi, h1, h2⟩ := insScore_split x (sortScores xs)
    have hs2 : List.Pairwise (fun a b : Txt × ℚ => a.2 ≥ b.2) l2 := by
      rw [he, List.pairwise_append] at hsorted
      exact hsorted.2.1
    constructor
    · show List.Pairwise _ (insScore x (sortScores xs))
      rw [hi, List.pairwise_append]
      rw [he, List.pairwise_append] at hsorted
      obtain ⟨hp1, hp2, hcross⟩ := hsorted
      refine ⟨hp1, ?_, ?_⟩
      · rw [List.pairwise_cons]
        refine ⟨?_, hp2⟩
        intro b hb
        cases l2 with
        | nil => exact absurd hb (List.not_mem_nil b)
        | cons z l2' =>
          have hz : ¬ z.2 > x.2 := h2 z (by simp)
          rcases List.mem_cons.mp hb with rfl | hb'
          · exact le_of_not_lt hz
          · have hzb : z.2 ≥ b.2 := (List.pairwise_cons.mp hp2).1 b hb'
            exact le_trans hzb (le_of_not_lt hz)
      · intro a ha b hb
        rcases List.mem_cons.mp hb with rfl | hb'
        · exact le_of_lt (h1 a ha)
        · exact hcross a ha b hb'
    · intro s
      show (insScore x (sortScores xs)).filter _ = _
      have hfe : (sortScores xs).filter (fun e => e.2 = s)
          = l1.filter (fun e => e.2 = s) ++ l2.filter (fun e => e.2 = s) := by
        rw [he, List.filter_append]
      rw [hi, List.filter_append, List.filter_cons, List.filter_cons]
      by_cases hxs : x.2 = s
      · have hl1 : l1.filter (fun e : Txt × ℚ => e.2 = s) = [] := by
          rw [List.filter_eq_nil_iff]
          intro a ha
          simp only [decide_eq_true_eq]
          intro haa
          have hgt := h1 a ha
          rw [haa, hxs] at hgt
          exact absurd hgt (lt_irrefl s)
        rw [if_pos (by simp [hxs]), if_pos (by simp [hxs]), hl1]
        have : xs.filter (fun e : Txt × ℚ => e.2 = s)
            = l2.filter (fun e : Txt × ℚ => e.2 = s) := by
          rw [← hfil s, hfe, hl1]
          rfl
        rw [this]
        rfl
      · rw [if_neg (by simp [hxs]), if_neg (by simp [hxs])]
        rw [← hfil s, hfe]

theorem resolveAcc_rank_ge {α' : Type} (resolve : Txt → Option α') :
    ∀ (l : List (Txt × ℚ)) (r : ℕ), ∀ e ∈ resolveAcc resolve r l, r ≤ e.rank := by
  intro l
  induction l with
  | nil => intro r e he; exact absurd he (List.not_mem_nil e)
  | cons p rest ih =>
    intro r e he
    obtain ⟨id, s⟩ := p
    unfold resolveAcc at he
    split at he
    · rcases List.mem_cons.mp he with rfl | he'
      · exact le_refl _
      · exact le_trans (Nat.le_succ r) (ih (r + 1) e he')
    · exact le_trans (Nat.le_succ r) (ih (r + 1) e he)

theorem resolveAcc_score_mem {α' : Type} (resolve : Txt → Option α') :
    ∀ (l : List (Txt × ℚ)) (r : ℕ), ∀ e ∈ resolveAcc resolve r l,
      ∃ p ∈ l, e.score = p.2 := by
  intro l
  induction l with
  | nil => intro r e he; exact absurd he (List.not_mem_nil e)
  | cons p rest ih =>
    intro r e he
    obtain ⟨id, s⟩ := p
    unfold resolveAcc at he
    split at he
    · rcases List.mem_cons.mp he with rfl | he'
      · exact ⟨(id, s), List.mem_cons_self _ _, rfl⟩
      · obtain ⟨q, hq, hqe⟩ := ih (r + 1) e he'
        exact ⟨q, List.mem_cons_of_mem _ hq, hqe⟩
    · obtain ⟨q, hq, hqe⟩ := ih (r + 1) e he
      exact ⟨q, List.mem_cons_of_mem _ hq, hqe⟩

theorem resolveAcc_pairwise {α' : Type} (resolve : Txt → Option α') :
    ∀ (l : List (Txt × ℚ)) (r : ℕ),
      List.Pairwise (fun a b : Txt × ℚ => a.2 ≥ b.2) l →
      List.Pairwise
        (fun a b : RetRes α' => a.score > b.score ∨ (a.score = b.score ∧ a.rank < b.rank))
        (resolveAcc resolve r l) := by
  intro l
  induction l with
  | nil => intro r _; exact List.Pairwise.nil
  | cons p rest ih =>
    intro r hp
    obtain ⟨id, s⟩ := p
    obtain ⟨hhead, htail⟩ := List.pairwise_cons.mp hp
    unfold resolveAcc
    split
    · rw [List.pairwise_cons]
      constructor
      · intro b hb
        obtain ⟨q, hq, hqe⟩ := resolveAcc_score_mem resolve rest (r + 1) b hb
        have hsq : s ≥ b.score := by rw [hqe]; exact hhead q hq
        have hrk : r < b.rank :=
          lt_of_lt_of_le (Nat.lt_succ_self r) (resolveAcc_rank_ge resolve rest (r + 1) b hb)
        rcases lt_or_eq_of_le hsq with h | h
        · exact Or.inl h
        · exact Or.inr ⟨h.symm, hrk⟩
      · exact ih (r + 1) htail
    · exact ih (r + 1) htail

/-- C4: in hybrid fusion, each candidate list contributes
`weight / (rank_constant + rank)` per chunk at its 1-based rank (`keep`
abstracts the metadata re-check; with no filter it is constantly true), the
vector list weighted `α` and the lexical list `1 − α`; a chunk absent from a
list receives `0` from it; the fused candidates are sorted by descending score
and the top `k` taken. -/
theorem c4_fusion (vec lex : List (Txt × ℚ)) (α : ℚ) (keep : Txt → Bool)
    (id : Txt) (k : ℕ)
    (hv : (vec.map Prod.fst).Nodup) (hl : (lex.map Prod.fst).Nodup) :
    scoreOf (fusedList keep α vec lex) id
      = α * specContrib keep vec id + (1 - α) * specContrib keep lex id ∧
    List.Pairwise (fun a b : Txt × ℚ => a.2 ≥ b.2)
      (sortScores (fusedList keep α vec lex)) ∧
    ((sortScores (fusedList keep α vec lex)).take k).length ≤ k := by
  refine ⟨?_, (sortScores_sorted_filter _).1, by simp⟩
  show scoreOf (applyRrf keep (1 - α) (applyRrf keep α [] 0 vec) 0 lex) id = _
  rw [applyRrf_score keep (1 - α) id lex _ 0
    (applyRrf_keys_nodup keep α vec [] 0 (by simp))]
  rw [applyRrf_score keep α id vec [] 0 (by simp)]
  rw [scoreOf_nil, contribSum_spec keep id hv, contribSum_spec keep id hl]
  ring

theorem c4_fusion_witness :
    scoreOf (fusedList (fun _ => true) (7/10)
        [("a".toList, (9 : ℚ)/10), ("b".toList, (1 : ℚ)/2)]
        [("b".toList, (2 : ℚ)/3), ("c".toList, (1 : ℚ)/3)]) "b".toList
      = (7 : ℚ)/10 * specContrib (fun _ => true)
          [("a".toList, (9 : ℚ)/10), ("b".toList, (1 : ℚ)/2)] "b".toList
        + (1 - 7/10) * specContrib (fun _ => true)
            [("b".toList, (2 : ℚ)/3), ("c".toList, (1 : ℚ)/3)] "b".toList :=
  (c4_fusion [("a".toList, (9 : ℚ)/10), ("b".toList, (1 : ℚ)/2)]
    [("b".toList, (2 : ℚ)/3), ("c".toList, (1 : ℚ)/3)] (7/10) (fun _ => true)
    "b".toList 5 (by decide) (by decide)).1

/-- C5: a retrieval result list is ordered by strictly descending score with
ties broken stably in first-seen order: the fused dict's keys are unique and
listed in first-seen order, the stable sort is non-increasing in score and
preserves the dict order inside every equal-score class, and the final
resolved list (ranks assigned over the sorted top-k) is strictly descending in
the (score, rank) lexicographic order. -/
theorem c5_ordering {α' : Type} (cfg : RetCfg) (q : Txt) (k : ℕ)
    (vec lex : List (Txt × ℚ)) (keep : Txt → Bool) (resolve : Txt → Option α') :
    ((fusedList keep (chooseAlpha cfg q) vec lex).map Prod.fst).Nodup ∧
    List.Pairwise (fun a b : Txt × ℚ => a.2 ≥ b.2)
      (sortScores (fusedList keep (chooseAlpha cfg q) vec lex)) ∧
    (∀ s : ℚ,
      (sortScores (fusedList keep (chooseAlpha cfg q) vec lex)).filter
          (fun e => e.2 = s)
        = (fusedList keep (chooseAlpha cfg q) vec lex).filter (fun e => e.2 = s)) ∧
    List.Pairwise
      (fun a b : RetRes α' => a.score > b.score ∨ (a.score = b.score ∧ a.rank < b.rank))
      (hybridRetrieve cfg q k vec lex keep resolve) := by
  refine ⟨?_, (sortScores_sorted_filter _).1, (sortScores_sorted_filter _).2, ?_⟩
  · show ((applyRrf keep _ (applyRrf keep _ [] 0 vec) 0 lex).map Prod.fst).Nodup
    exact applyRrf_keys_nodup _ _ lex _ 0 (applyRrf_keys_nodup _ _ vec [] 0 (by simp))
  · show List.Pairwise _ (resolveAcc resolve 1 ((sortScores _).take k))
    refine resolveAcc_pairwise resolve _ 1 ?_
    exact ((sortScores_sorted_filter _).1).sublist (List.take_sublist k _)

theorem c5_ordering_witness :
    List.Pairwise
      (fun a b : RetRes ℕ => a.score > b.score ∨ (a.score = b.score ∧ a.rank < b.rank))
      (hybridRetrieve ⟨7/10⟩ "explain continuity".toList 3
        [("a".toList, (9 : ℚ)/10), ("b".toList, (1 : ℚ)/2)]
        [("b".toList, (2 : ℚ)/3), ("c".toList, (1 : ℚ)/3)]
        (fun _ => true) (fun id => if id = "c".toList then none else some id.length)) :=
  (c5_ordering ⟨7/10⟩ "explain continuity".toList 3
    [("a".toList, (9 : ℚ)/10), ("b".toList, (1 : ℚ)/2)]
    [("b".toList, (2 : ℚ)/3), ("c".toList, (1 : ℚ)/3)]
    (fun _ => true) (fun id => if id = "c".toList then none else some id.length)).2.2.2

/-- C9 counterexample: pages carrying `CHAPTER 5` then `CHAPTER 2` produce
chunks whose recorded chapter numbers are `[0, 5, 2]` — not monotonically
non-decreasing, refuting the unconditional monotonicity claim. -/
theorem c9_counterexample :
    (chunkDocument 800 "doc1".toList "11".toList [c9pageA, c9pageB, c9pageC]).map
        Chunk.chapterNumber = [0, 5, 2] ∧
    ¬ List.Chain' (· ≤ ·)
        ((chunkDocument 800 "doc1".toList "11".toList [c9pageA, c9pageB, c9pageC]).map
          Chunk.chapterNumber) := by
  have hmap :
      (chunkDocument 800 "doc1".toList "11".toList [c9pageA, c9pageB, c9pageC]).map
        Chunk.chapterNumber = [0, 5, 2] := by decide
  refine ⟨hmap, ?_⟩
  rw [hmap]
  intro hch
  simp only [List.chain'_cons, List.chain'_singleton, and_true] at hch
  omega

end MathRag
